import Mathlib

/-!
Verification of the `vancouver` dependency-audit engine.

The definitions below are a shallow embedding of the Rust sources:
`crates/vancouver/src/types.rs` (the free-form version model) and
`crates/vancouver/src/check.rs` (the trust-resolution engine).
Strings are modelled as `List Char`; byte-wise comparison of UTF-8
strings coincides with code-point comparison, so `Char` comparison by
code point is faithful to Rust's `str` ordering.  The `BTreeMap` /
`BTreeSet` containers are modelled as association lists with
insert-replaces-existing semantics; lookups and membership agree with
the tree maps, which is all the engine observes.
-/

set_option maxHeartbeats 1000000
set_option synthInstance.maxSize 1024

/-- `Ordering` result of comparing two naturals, written out with `if`s
so that facts about it reduce to arithmetic. -/
def ncmp (a b : Nat) : Ordering :=
  if a < b then .lt else if b < a then .gt else .eq

/-- Comparison of two characters by code point; faithful to Rust's
byte-wise `str` ordering on UTF-8 data. -/
def ccmp (a b : Char) : Ordering :=
  ncmp a.toNat b.toNat

/-- Lexicographic comparison of two character lists, embedding Rust's
`String::cmp`. -/
def cmpChars : List Char → List Char → Ordering
  | [], [] => .eq
  | [], _ :: _ => .lt
  | _ :: _, [] => .gt
  | l :: ls, r :: rs => (ccmp l r).then (cmpChars ls rs)

/-- `types.rs` `VersionPart`: a dash, a run of ASCII digits, or a run of
other characters. -/
inductive VersionPart where
  | Dash : VersionPart
  | Number : List Char → VersionPart
  | Str : List Char → VersionPart
deriving DecidableEq, Repr

/-- `types.rs` `count_digits`: the count of characters remaining after
skipping leading `'0'`s. -/
def count_digits (s : List Char) : Nat :=
  (s.dropWhile fun c => c == '0').length

/-- `types.rs` `impl Ord for VersionPart`, arm for arm: numbers compare
by significant-digit count then lexicographically, strings compare
lexicographically, `Dash` sorts below everything else and `Number`
below `Str`. -/
def VersionPart.cmp : VersionPart → VersionPart → Ordering
  | .Number l, .Number r => (ncmp (count_digits l) (count_digits r)).then (cmpChars l r)
  | .Str l, .Str r => cmpChars l r
  | .Dash, .Dash => .eq
  | .Number _, .Str _ => .lt
  | .Dash, _ => .lt
  | .Str _, .Number _ => .gt
  | _, .Dash => .gt

/-- `types.rs` `VersionPart::chomp`: take a dash, a maximal digit run,
or a maximal run free of digits and dashes off the front of the input. -/
def VersionPart.chomp : List Char → Option (VersionPart × List Char)
  | [] => none
  | c :: r =>
    if c == '-' then some (.Dash, r)
    else if c.isDigit then
      some (.Number (c :: r.takeWhile Char.isDigit), r.dropWhile Char.isDigit)
    else
      some (.Str (c :: r.takeWhile fun x => !(x.isDigit || x == '-')),
        r.dropWhile fun x => !(x.isDigit || x == '-'))

theorem dropWhile_length_le (p : Char → Bool) :
    ∀ l : List Char, (l.dropWhile p).length ≤ l.length := by
  intro l
  induction l with
  | nil => simp
  | cons c r ih =>
    by_cases h : p c
    · simp [List.dropWhile, h]; omega
    · simp [List.dropWhile, h]

theorem chomp_shrinks {l rest : List Char} {p : VersionPart}
    (h : VersionPart.chomp l = some (p, rest)) : rest.length < l.length := by
  match l with
  | [] => simp [VersionPart.chomp] at h
  | c :: r =>
    simp only [VersionPart.chomp] at h
    split at h
    · simp only [Option.some.injEq, Prod.mk.injEq] at h
      rw [← h.2]
      simp
    · split at h <;>
        (simp only [Option.some.injEq, Prod.mk.injEq] at h
         rw [← h.2, List.length_cons]
         exact Nat.lt_succ_of_le (dropWhile_length_le _ r))

/-- Fuel-indexed iteration of `VersionPart::chomp` (the fuel makes the
recursion structural so that concrete parses evaluate). -/
def parsePartsF : Nat → List Char → List VersionPart
  | 0, _ => []
  | fuel + 1, l =>
    match VersionPart.chomp l with
    | none => []
    | some (p, rest) => p :: parsePartsF fuel rest

/-- `types.rs` `Version::new` seen as a function on the character list:
repeatedly chomp parts until the input is exhausted.  The input's
length always suffices as fuel because each chomp consumes at least one
character (`parseParts_eq` recovers the original loop shape). -/
def parseParts (l : List Char) : List VersionPart := parsePartsF l.length l

theorem parsePartsF_nil (fuel : Nat) : parsePartsF fuel [] = [] := by
  cases fuel <;> simp [parsePartsF, VersionPart.chomp]

theorem parsePartsF_stable :
    ∀ fuel₁ fuel₂ l, l.length ≤ fuel₁ → l.length ≤ fuel₂ →
      parsePartsF fuel₁ l = parsePartsF fuel₂ l := by
  intro fuel₁
  induction fuel₁ with
  | zero =>
    intro fuel₂ l h1 _
    have : l = [] := List.eq_nil_of_length_eq_zero (Nat.le_zero.mp h1)
    subst this
    rw [parsePartsF_nil, parsePartsF_nil]
  | succ n ih =>
    intro fuel₂ l h1 h2
    cases fuel₂ with
    | zero =>
      have : l = [] := List.eq_nil_of_length_eq_zero (Nat.le_zero.mp h2)
      subst this
      rw [parsePartsF_nil, parsePartsF_nil]
    | succ m =>
      simp only [parsePartsF]
      cases hc : VersionPart.chomp l with
      | none => rfl
      | some pr =>
        obtain ⟨p, rest⟩ := pr
        have hlt := chomp_shrinks hc
        simp only []
        rw [ih m rest (by omega) (by omega)]

/-- One-step unfolding of `parseParts`: it is the loop of
`Version::new`. -/
theorem parseParts_eq (l : List Char) :
    parseParts l = match VersionPart.chomp l with
      | none => []
      | some (p, rest) => p :: parseParts rest := by
  unfold parseParts
  cases hl : l with
  | nil => rw [parsePartsF_nil]; simp [VersionPart.chomp]
  | cons c r =>
    simp only [parsePartsF, List.length_cons]
    cases hc : VersionPart.chomp (c :: r) with
    | none => rfl
    | some pr =>
      obtain ⟨p, rest⟩ := pr
      have hlt := chomp_shrinks hc
      simp only [List.length_cons] at hlt
      simp only []
      rw [parsePartsF_stable r.length rest.length rest (by omega) (by omega)]

/-- A parsed version is its list of parts (`types.rs` `Version`). -/
abbrev Version := List VersionPart

/-- `types.rs` `Version::new` on a string. -/
def Version.new (s : String) : Version := parseParts s.data

/-- `types.rs` `impl Ord for Version`: part-wise comparison; when one
sequence runs out first, a remaining leading `Dash` flips the usual
shorter-is-less rule. -/
def Version.cmp : Version → Version → Ordering
  | [], [] => .eq
  | .Dash :: _, [] => .lt
  | [], .Dash :: _ => .gt
  | _ :: _, [] => .gt
  | [], _ :: _ => .lt
  | l :: ls, r :: rs => (VersionPart.cmp l r).then (Version.cmp ls rs)

/-- `types.rs` `impl Display for VersionPart`. -/
def VersionPart.toChars : VersionPart → List Char
  | .Dash => ['-']
  | .Number s => s
  | .Str s => s

/-- `types.rs` `impl Display for Version`: concatenate the parts. -/
def Version.toChars (v : Version) : List Char :=
  (v.map VersionPart.toChars).flatten

/-- `Version`'s `Display` output as a `String`. -/
def Version.toString (v : Version) : String :=
  String.mk (Version.toChars v)

example : Version.new "7.15.1-pre.1" =
    [.Number ['7'], .Str ['.'], .Number ['1', '5'], .Str ['.'], .Number ['1'],
     .Dash, .Str ['p', 'r', 'e', '.'], .Number ['1']] := by decide

example : Version.cmp (Version.new "7.15.1-pre.1") (Version.new "7.15.1") = .lt := by decide
example : Version.cmp (Version.new "7.15.1") (Version.new "7.15.1a") = .lt := by decide
example : Version.cmp (Version.new "7.15") (Version.new "7.15.1-pre.1") = .lt := by decide
example : Version.toString (Version.new "7.15.1-pre.1") = "7.15.1-pre.1" := by decide

/-! ### Order-theoretic facts about the version comparison -/

theorem ncmp_eq_iff {a b : Nat} : ncmp a b = .eq ↔ a = b := by
  unfold ncmp
  split <;> rename_i h
  · simp; omega
  · split <;> rename_i h2 <;> simp <;> omega

theorem ncmp_lt_iff {a b : Nat} : ncmp a b = .lt ↔ a < b := by
  unfold ncmp
  split <;> rename_i h
  · simpa using h
  · split <;> simp <;> omega

theorem ncmp_swap (a b : Nat) : ncmp b a = (ncmp a b).swap := by
  rcases Nat.lt_trichotomy a b with h | h | h
  · simp [ncmp, h, Nat.lt_asymm h, Ordering.swap]
  · subst h
    simp [ncmp, Nat.lt_irrefl, Ordering.swap]
  · simp [ncmp, h, Nat.lt_asymm h, Ordering.swap]

theorem ccmp_eq_iff {a b : Char} : ccmp a b = .eq ↔ a = b := by
  unfold ccmp
  rw [ncmp_eq_iff]
  constructor
  · intro h
    apply Char.ext
    apply UInt32.ext
    exact h
  · intro h; rw [h]

theorem ccmp_lt_iff {a b : Char} : ccmp a b = .lt ↔ a.toNat < b.toNat := ncmp_lt_iff

theorem ccmp_swap (a b : Char) : ccmp b a = (ccmp a b).swap := ncmp_swap _ _

theorem then_eq_iff {o p : Ordering} : o.then p = .eq ↔ o = .eq ∧ p = .eq := by
  cases o <;> simp [Ordering.then]

theorem then_lt_iff {o p : Ordering} : o.then p = .lt ↔ o = .lt ∨ (o = .eq ∧ p = .lt) := by
  cases o <;> simp [Ordering.then]

theorem then_swap (o p : Ordering) : (o.then p).swap = o.swap.then p.swap := by
  cases o <;> simp [Ordering.then, Ordering.swap]

theorem cmpChars_eq_iff : ∀ {l r : List Char}, cmpChars l r = .eq ↔ l = r := by
  intro l
  induction l with
  | nil => intro r; cases r <;> simp [cmpChars]
  | cons c cs ih =>
    intro r
    cases r with
    | nil => simp [cmpChars]
    | cons d ds => simp [cmpChars, then_eq_iff, ccmp_eq_iff, ih]

theorem cmpChars_swap : ∀ l r : List Char, cmpChars r l = (cmpChars l r).swap := by
  intro l
  induction l with
  | nil => intro r; cases r <;> simp [cmpChars, Ordering.swap]
  | cons c cs ih =>
    intro r
    cases r with
    | nil => simp [cmpChars, Ordering.swap]
    | cons d ds =>
      simp only [cmpChars]
      rw [ccmp_swap c d, ih ds, ← then_swap]

theorem cmpChars_trans : ∀ {l m r : List Char},
    cmpChars l m = .lt → cmpChars m r = .lt → cmpChars l r = .lt := by
  intro l
  induction l with
  | nil =>
    intro m r h1 h2
    cases m with
    | nil => exact h2
    | cons d ds =>
      cases r with
      | nil => simp [cmpChars] at h2
      | cons e es => simp [cmpChars]
  | cons c cs ih =>
    intro m r h1 h2
    cases m with
    | nil => simp [cmpChars] at h1
    | cons d ds =>
      cases r with
      | nil => simp [cmpChars] at h2
      | cons e es =>
        simp only [cmpChars, then_lt_iff, ccmp_eq_iff] at h1 h2 ⊢
        rcases h1 with h1 | ⟨h1e, h1r⟩ <;> rcases h2 with h2 | ⟨h2e, h2r⟩
        · left
          rw [ccmp_lt_iff] at h2 ⊢
          exact Nat.lt_trans (ccmp_lt_iff.mp h1) h2
        · subst h2e; left; exact h1
        · subst h1e; left; exact h2
        · subst h1e; subst h2e
          right
          exact ⟨rfl, ih h1r h2r⟩

theorem pcmp_eq_iff : ∀ {x y : VersionPart}, VersionPart.cmp x y = .eq ↔ x = y := by
  intro x y
  cases x <;> cases y <;>
    simp [VersionPart.cmp, then_eq_iff, ncmp_eq_iff, cmpChars_eq_iff]
  intro h
  rw [h]

theorem pcmp_swap : ∀ x y : VersionPart, VersionPart.cmp y x = (VersionPart.cmp x y).swap := by
  intro x y
  cases x <;> cases y <;> try (simp [VersionPart.cmp, Ordering.swap])
  · rename_i a b
    rw [ncmp_swap (count_digits a) (count_digits b), cmpChars_swap a b, ← then_swap]
    rfl
  · rename_i a b
    rw [cmpChars_swap a b]
    rfl

theorem pcmp_trans : ∀ {x y z : VersionPart},
    VersionPart.cmp x y = .lt → VersionPart.cmp y z = .lt → VersionPart.cmp x z = .lt := by
  intro x y z h1 h2
  cases x <;> cases y <;> cases z <;>
    try (simp only [VersionPart.cmp] at h1; exact absurd h1 (by decide))
  all_goals try (simp only [VersionPart.cmp] at h2; exact absurd h2 (by decide))
  all_goals try rfl
  · -- Number / Number / Number
    simp only [VersionPart.cmp, then_lt_iff, ncmp_lt_iff, ncmp_eq_iff] at h1 h2 ⊢
    rcases h1 with h1 | ⟨h1e, h1r⟩ <;> rcases h2 with h2 | ⟨h2e, h2r⟩
    · left; omega
    · left; omega
    · left; omega
    · right
      constructor
      · omega
      · exact cmpChars_trans h1r h2r
  · -- Str / Str / Str
    simp only [VersionPart.cmp] at h1 h2 ⊢
    exact cmpChars_trans h1 h2

theorem pcmp_not_dash_right {x z : VersionPart} (h : VersionPart.cmp x z = .lt)
    (hx : x ≠ .Dash) : z ≠ .Dash := by
  intro hz
  subst hz
  cases x <;> simp [VersionPart.cmp] at h hx

theorem pcmp_dash_lt {z : VersionPart} (h : z ≠ .Dash) :
    VersionPart.cmp .Dash z = .lt := by
  cases z <;> simp [VersionPart.cmp] at h ⊢

theorem vcmp_eq_iff : ∀ {a b : Version}, Version.cmp a b = .eq ↔ a = b := by
  intro a
  induction a with
  | nil =>
    intro b
    cases b with
    | nil => simp [Version.cmp]
    | cons y bs => cases y <;> simp [Version.cmp]
  | cons x as ih =>
    intro b
    cases b with
    | nil => cases x <;> simp [Version.cmp]
    | cons y bs => simp [Version.cmp, then_eq_iff, pcmp_eq_iff, ih]

theorem vcmp_swap : ∀ a b : Version, Version.cmp b a = (Version.cmp a b).swap := by
  intro a
  induction a with
  | nil =>
    intro b
    cases b with
    | nil => simp [Version.cmp, Ordering.swap]
    | cons y bs => cases y <;> simp [Version.cmp, Ordering.swap]
  | cons x as ih =>
    intro b
    cases b with
    | nil => cases x <;> simp [Version.cmp, Ordering.swap]
    | cons y bs =>
      simp only [Version.cmp]
      rw [pcmp_swap x y, ih bs, ← then_swap]

theorem vcmp_lt_head {x y : VersionPart} {as bs : Version} :
    Version.cmp (x :: as) (y :: bs) = .lt ↔
      VersionPart.cmp x y = .lt ∨ (x = y ∧ Version.cmp as bs = .lt) := by
  simp [Version.cmp, then_lt_iff, pcmp_eq_iff]

theorem vcmp_nil_left {b : Version} :
    Version.cmp [] b = .lt ↔ ∃ y bs, b = y :: bs ∧ y ≠ .Dash := by
  cases b with
  | nil => simp [Version.cmp]
  | cons y bs => cases y <;> simp [Version.cmp]

theorem vcmp_cons_nil {x : VersionPart} {as : Version} :
    Version.cmp (x :: as) [] = .lt ↔ x = .Dash := by
  cases x <;> simp [Version.cmp]

theorem vcmp_trans : ∀ {a b c : Version},
    Version.cmp a b = .lt → Version.cmp b c = .lt → Version.cmp a c = .lt := by
  intro a
  induction a with
  | nil =>
    intro b c h1 h2
    rw [vcmp_nil_left] at h1 ⊢
    obtain ⟨y, bs, rfl, hy⟩ := h1
    cases c with
    | nil =>
      rw [vcmp_cons_nil] at h2
      exact absurd h2 hy
    | cons z cs =>
      refine ⟨z, cs, rfl, ?_⟩
      rw [vcmp_lt_head] at h2
      rcases h2 with h2 | ⟨rfl, _⟩
      · exact pcmp_not_dash_right h2 hy
      · exact hy
  | cons x as ih =>
    intro b c h1 h2
    cases b with
    | nil =>
      rw [vcmp_cons_nil] at h1
      subst h1
      rw [vcmp_nil_left] at h2
      obtain ⟨z, cs, rfl, hz⟩ := h2
      rw [vcmp_lt_head]
      exact Or.inl (pcmp_dash_lt hz)
    | cons y bs =>
      rw [vcmp_lt_head] at h1
      cases c with
      | nil =>
        rw [vcmp_cons_nil] at h2 ⊢
        subst h2
        rcases h1 with h1 | ⟨rfl, _⟩
        · cases x <;> simp [VersionPart.cmp] at h1 ⊢
        · rfl
      | cons z cs =>
        rw [vcmp_lt_head] at h2 ⊢
        rcases h1 with h1 | ⟨rfl, h1r⟩ <;> rcases h2 with h2 | ⟨rfl, h2r⟩
        · exact Or.inl (pcmp_trans h1 h2)
        · exact Or.inl h1
        · exact Or.inl h2
        · exact Or.inr ⟨rfl, ih h1r h2r⟩

/-! ### Round-tripping parse and format -/

theorem chomp_none {l : List Char} (h : VersionPart.chomp l = none) : l = [] := by
  cases l with
  | nil => rfl
  | cons c r =>
    simp only [VersionPart.chomp] at h
    split at h <;> simp at h
    split at h <;> simp at h

theorem chomp_append {l rest : List Char} {p : VersionPart}
    (h : VersionPart.chomp l = some (p, rest)) : p.toChars ++ rest = l := by
  cases l with
  | nil => simp [VersionPart.chomp] at h
  | cons c r =>
    simp only [VersionPart.chomp] at h
    split at h <;> rename_i hc
    · simp only [Option.some.injEq, Prod.mk.injEq] at h
      rw [← h.1, ← h.2, VersionPart.toChars]
      have : c = '-' := by simpa using hc
      rw [this]
      rfl
    · split at h <;>
        (simp only [Option.some.injEq, Prod.mk.injEq] at h
         rw [← h.1, ← h.2, VersionPart.toChars]
         simp)

theorem parsePartsF_roundtrip :
    ∀ fuel l, l.length ≤ fuel → Version.toChars (parsePartsF fuel l) = l := by
  intro fuel
  induction fuel with
  | zero =>
    intro l h
    have : l = [] := List.eq_nil_of_length_eq_zero (Nat.le_zero.mp h)
    subst this
    rfl
  | succ n ih =>
    intro l h
    simp only [parsePartsF]
    cases hc : VersionPart.chomp l with
    | none => rw [chomp_none hc]; rfl
    | some pr =>
      obtain ⟨p, rest⟩ := pr
      have hlt := chomp_shrinks hc
      simp only [Version.toChars, List.map_cons, List.flatten_cons]
      have hrest : Version.toChars (parsePartsF n rest) = rest := ih rest (by omega)
      rw [Version.toChars] at hrest
      rw [hrest]
      exact chomp_append hc

theorem parseParts_roundtrip (l : List Char) :
    Version.toChars (parseParts l) = l :=
  parsePartsF_roundtrip l.length l (Nat.le_refl _)

/-- Parsing is injective: distinct spellings stay distinct. -/
theorem parseParts_inj {l m : List Char} (h : parseParts l = parseParts m) : l = m := by
  rw [← parseParts_roundtrip l, ← parseParts_roundtrip m, h]

/-! ### Sorted insertion (the `BTreeSet<Version>` model) -/

/-- Insertion into a strictly ascending list of versions; duplicates by
`Version.cmp` collapse, mirroring `BTreeSet<Version>` insertion. -/
def insertSorted (x : Version) : List Version → List Version
  | [] => [x]
  | y :: rest =>
    match Version.cmp x y with
    | .lt => x :: y :: rest
    | .eq => y :: rest
    | .gt => y :: insertSorted x rest

/-- The ascending sorted set of a list of versions, modelling collection
into a `BTreeSet<Version>`. -/
def sortVersions (l : List Version) : List Version := l.foldr insertSorted []

/-- Claim C10: parsing any string into a `Version` and formatting it back is
the identity, so receipts and reports reproduce dependency version strings
verbatim; still, numerically equal spellings parse to distinct versions. -/
theorem version_parse_format_roundtrip :
    (∀ s : String, Version.toString (Version.new s) = s)
    ∧ Version.new "1.07" ≠ Version.new "1.7" := by
  constructor
  · intro s
    unfold Version.toString Version.new
    rw [parseParts_roundtrip s.data]
  · decide

/-- Claim C1: the comparison on parsed versions is a strict total order —
for every pair exactly one of less / equal / greater holds, the order is
transitive, and sorting the spec's sample sequence ascending places
`7.15 < 7.15.1-pre.1 < 7.15.1-pre.2 < 7.15.1 < 7.15.1a < 7.15.2` in
exactly that order. -/
theorem version_cmp_strict_total_order :
    (∀ a b : Version,
        (Version.cmp a b = .lt ∧ a ≠ b ∧ Version.cmp a b ≠ .gt)
        ∨ (Version.cmp a b ≠ .lt ∧ a = b ∧ Version.cmp a b ≠ .gt)
        ∨ (Version.cmp a b ≠ .lt ∧ a ≠ b ∧ Version.cmp a b = .gt))
    ∧ (∀ a b c : Version, Version.cmp a b = .lt → Version.cmp b c = .lt →
        Version.cmp a c = .lt)
    ∧ sortVersions
        (["3.14.16", "16.15.1", "7.15.1a", "7.15.1-pre.2", "7.15",
          "7.15.1-pre.1", "7.15.1", "7.15.2"].map Version.new)
      = ["3.14.16", "7.15", "7.15.1-pre.1", "7.15.1-pre.2", "7.15.1",
         "7.15.1a", "7.15.2", "16.15.1"].map Version.new := by
  refine ⟨?_, ?_, ?_⟩
  · intro a b
    cases hc : Version.cmp a b with
    | lt =>
      left
      refine ⟨rfl, ?_, by simp⟩
      intro hab
      have he : Version.cmp a b = .eq := vcmp_eq_iff.mpr hab
      rw [he] at hc
      exact absurd hc (by decide)
    | eq =>
      right; left
      exact ⟨by simp [hc], vcmp_eq_iff.mp hc, by simp [hc]⟩
    | gt =>
      right; right
      refine ⟨by simp [hc], ?_, rfl⟩
      intro hab
      have he : Version.cmp a b = .eq := vcmp_eq_iff.mpr hab
      rw [he] at hc
      exact absurd hc (by decide)
  · intro a b c
    exact vcmp_trans
  · decide

theorem version_cmp_strict_total_order_witness :
    Version.cmp (Version.new "7.15") (Version.new "7.15.1a") = .lt :=
  version_cmp_strict_total_order.2.1 (Version.new "7.15") (Version.new "7.15.1")
    (Version.new "7.15.1a") (by decide) (by decide)

/-! ### Numeric reading of digit runs -/

/-- Mathematical integer value of a run of ASCII digits; the code never
computes this, it exists to state claims about the comparison. -/
def digitsToNat (s : List Char) : Nat :=
  s.foldl (fun acc c => 10 * acc + (c.toNat - 48)) 0

theorem char_digit_bounds {c : Char} (h : c.isDigit = true) :
    48 ≤ c.toNat ∧ c.toNat ≤ 57 := by
  simp [Char.isDigit] at h
  exact h

theorem digitsToNat_foldl_acc :
    ∀ (s : List Char) (a : Nat),
      s.foldl (fun acc c => 10 * acc + (c.toNat - 48)) a
        = a * 10 ^ s.length + digitsToNat s := by
  intro s
  induction s with
  | nil => intro a; simp [digitsToNat]
  | cons c r ih =>
    intro a
    simp only [List.foldl_cons, List.length_cons, digitsToNat]
    rw [ih (10 * a + (c.toNat - 48)), ih (10 * 0 + (c.toNat - 48))]
    ring

theorem digitsToNat_cons (c : Char) (r : List Char) :
    digitsToNat (c :: r) = (c.toNat - 48) * 10 ^ r.length + digitsToNat r := by
  show List.foldl _ 0 (c :: r) = _
  rw [List.foldl_cons, digitsToNat_foldl_acc]
  ring_nf

theorem digitsToNat_lt (s : List Char) (hs : ∀ c ∈ s, c.isDigit) :
    digitsToNat s < 10 ^ s.length := by
  induction s with
  | nil => simp [digitsToNat]
  | cons c r ih =>
    have hd := char_digit_bounds (hs c (by simp))
    have hr := ih (fun x hx => hs x (by simp [hx]))
    rw [digitsToNat_cons, List.length_cons, Nat.pow_succ]
    have h9 : c.toNat - 48 ≤ 9 := by omega
    have : (c.toNat - 48) * 10 ^ r.length ≤ 9 * 10 ^ r.length :=
      Nat.mul_le_mul_right _ h9
    omega

theorem digitsToNat_ge (c : Char) (r : List Char) (hc : c.isDigit = true)
    (hc0 : c ≠ '0') : 10 ^ r.length ≤ digitsToNat (c :: r) := by
  have hd := char_digit_bounds hc
  have hne : c.toNat ≠ 48 := by
    intro h
    apply hc0
    apply Char.ext
    apply UInt32.ext
    exact h
  rw [digitsToNat_cons]
  have h1 : 1 ≤ c.toNat - 48 := by omega
  have : 1 * 10 ^ r.length ≤ (c.toNat - 48) * 10 ^ r.length :=
    Nat.mul_le_mul_right _ h1
  omega

theorem digitsToNat_strip_zero (r : List Char) :
    digitsToNat ('0' :: r) = digitsToNat r := by
  rw [digitsToNat_cons]
  have h : Char.toNat '0' - 48 = 0 := by decide
  rw [h]
  simp

/-- A digit string without leading zeros: nonempty and either the single
digit `0` or starting with a nonzero digit. -/
def noLeadZero : List Char → Bool
  | [] => false
  | ['0'] => true
  | c :: _ => c != '0'

theorem dropWhile_head_false {p : Char → Bool} {c : Char} {r : List Char}
    (h : p c = false) : (c :: r).dropWhile p = c :: r := by
  simp [List.dropWhile, h]

theorem count_digits_of_head_ne {c : Char} {r : List Char} (h : c ≠ '0') :
    count_digits (c :: r) = r.length + 1 := by
  unfold count_digits
  rw [dropWhile_head_false (by simpa using h)]
  simp

theorem ncmp_add_left (x a b : Nat) : ncmp (x + a) (x + b) = ncmp a b := by
  simp only [ncmp, Nat.add_lt_add_iff_left]

theorem cmpChars_digits_eq_ncmp :
    ∀ l r : List Char, l.length = r.length →
      (∀ c ∈ l, c.isDigit) → (∀ c ∈ r, c.isDigit) →
      cmpChars l r = ncmp (digitsToNat l) (digitsToNat r) := by
  intro l
  induction l with
  | nil =>
    intro r hlen _ _
    cases r with
    | nil => simp [cmpChars, digitsToNat, ncmp]
    | cons d ds => simp at hlen
  | cons c ls ih =>
    intro r hlen hl hr
    cases r with
    | nil => simp at hlen
    | cons d rs =>
      simp only [List.length_cons] at hlen
      have hlen' : ls.length = rs.length := by omega
      have hcd := char_digit_bounds (hl c (by simp))
      have hdd := char_digit_bounds (hr d (by simp))
      have hls : ∀ x ∈ ls, x.isDigit := fun x hx => hl x (by simp [hx])
      have hrs : ∀ x ∈ rs, x.isDigit := fun x hx => hr x (by simp [hx])
      have hvl := digitsToNat_lt ls hls
      have hvr := digitsToNat_lt rs hrs
      simp only [cmpChars, digitsToNat_cons]
      rcases Nat.lt_trichotomy c.toNat d.toNat with hc | hc | hc
      · have h1 : ccmp c d = .lt := ccmp_lt_iff.mpr hc
        rw [h1]
        have hstep : (c.toNat - 48) + 1 ≤ d.toNat - 48 := by omega
        have hmul : ((c.toNat - 48) + 1) * 10 ^ ls.length
            ≤ (d.toNat - 48) * 10 ^ rs.length := by
          rw [← hlen']
          exact Nat.mul_le_mul_right _ hstep
        have : (c.toNat - 48) * 10 ^ ls.length + digitsToNat ls
            < (d.toNat - 48) * 10 ^ rs.length + digitsToNat rs := by
          have hx : ((c.toNat - 48) + 1) * 10 ^ ls.length
              = (c.toNat - 48) * 10 ^ ls.length + 10 ^ ls.length := by ring
          omega
        rw [ncmp_lt_iff.mpr this]
        rfl
      · have hceq : c = d := by
          apply Char.ext
          apply UInt32.ext
          exact hc
        subst hceq
        rw [ccmp_eq_iff.mpr rfl]
        have : Ordering.eq.then (cmpChars ls rs) = cmpChars ls rs := rfl
        rw [this, ih rs hlen' hls hrs, hlen']
        exact (ncmp_add_left _ _ _).symm
      · have h1 : ccmp c d = .gt := by
          rw [ccmp_swap]
          rw [ccmp_lt_iff.mpr hc]
          rfl
        rw [h1]
        have hstep : (d.toNat - 48) + 1 ≤ c.toNat - 48 := by omega
        have hmul : ((d.toNat - 48) + 1) * 10 ^ rs.length
            ≤ (c.toNat - 48) * 10 ^ ls.length := by
          rw [hlen']
          exact Nat.mul_le_mul_right _ hstep
        have : (d.toNat - 48) * 10 ^ rs.length + digitsToNat rs
            < (c.toNat - 48) * 10 ^ ls.length + digitsToNat ls := by
          have hx : ((d.toNat - 48) + 1) * 10 ^ rs.length
              = (d.toNat - 48) * 10 ^ rs.length + 10 ^ rs.length := by ring
          omega
        have hgt : ncmp ((c.toNat - 48) * 10 ^ ls.length + digitsToNat ls)
            ((d.toNat - 48) * 10 ^ rs.length + digitsToNat rs) = .gt := by
          rw [ncmp_swap, ncmp_lt_iff.mpr this]
          rfl
        rw [hgt]
        rfl

theorem ncmp_gt_iff {a b : Nat} : ncmp a b = .gt ↔ b < a := by
  unfold ncmp
  split <;> rename_i h
  · simp; omega
  · split <;> simp <;> omega

theorem noLeadZero_cases {s : List Char} (h : noLeadZero s = true) :
    s = ['0'] ∨ ∃ c rest, s = c :: rest ∧ c ≠ '0' := by
  cases s with
  | nil => simp [noLeadZero] at h
  | cons c rest =>
    by_cases hc : c = '0'
    · subst hc
      cases rest with
      | nil => left; rfl
      | cons d ds => simp [noLeadZero] at h
    · right; exact ⟨c, rest, rfl, hc⟩

/-- Claim C8 (amended): for digit strings without leading zeros the
number-run comparison — significant-digit count first, then digit text —
agrees exactly with comparison of the numeric values; with leading zeros
it can disagree, see `number_cmp_value_counterexample`. -/
theorem number_cmp_matches_value {l r : List Char}
    (hl : ∀ c ∈ l, c.isDigit) (hr : ∀ c ∈ r, c.isDigit)
    (hl0 : noLeadZero l = true) (hr0 : noLeadZero r = true) :
    VersionPart.cmp (.Number l) (.Number r) = ncmp (digitsToNat l) (digitsToNat r) := by
  rcases noLeadZero_cases hl0 with rfl | ⟨c, ls, rfl, hc⟩ <;>
    rcases noLeadZero_cases hr0 with rfl | ⟨d, rs, rfl, hd⟩
  · decide
  · have h2 := @count_digits_of_head_ne d rs hd
    have h4 : 1 ≤ digitsToNat (d :: rs) :=
      le_trans (Nat.one_le_pow _ _ (by omega)) (digitsToNat_ge d rs (hr d (by simp)) hd)
    show (ncmp (count_digits ['0']) (count_digits (d :: rs))).then
        (cmpChars ['0'] (d :: rs)) = _
    have h1 : count_digits ['0'] = 0 := by decide
    have h3 : digitsToNat ['0'] = 0 := by decide
    rw [h1, h2, h3, ncmp_lt_iff.mpr (by omega),
      ncmp_lt_iff.mpr (show 0 < digitsToNat (d :: rs) by omega)]
    rfl
  · have h2 := @count_digits_of_head_ne c ls hc
    have h4 : 1 ≤ digitsToNat (c :: ls) :=
      le_trans (Nat.one_le_pow _ _ (by omega)) (digitsToNat_ge c ls (hl c (by simp)) hc)
    show (ncmp (count_digits (c :: ls)) (count_digits ['0'])).then
        (cmpChars (c :: ls) ['0']) = _
    have h1 : count_digits ['0'] = 0 := by decide
    have h3 : digitsToNat ['0'] = 0 := by decide
    rw [h1, h2, h3, ncmp_gt_iff.mpr (by omega),
      ncmp_gt_iff.mpr (show 0 < digitsToNat (c :: ls) by omega)]
    rfl
  · have hcl := @count_digits_of_head_ne c ls hc
    have hcr := @count_digits_of_head_ne d rs hd
    have hvl_lt := digitsToNat_lt (c :: ls) hl
    have hvr_lt := digitsToNat_lt (d :: rs) hr
    have hvl_ge := digitsToNat_ge c ls (hl c (by simp)) hc
    have hvr_ge := digitsToNat_ge d rs (hr d (by simp)) hd
    show (ncmp (count_digits (c :: ls)) (count_digits (d :: rs))).then
        (cmpChars (c :: ls) (d :: rs)) = _
    rw [hcl, hcr]
    rcases Nat.lt_trichotomy ls.length rs.length with hlen | hlen | hlen
    · rw [ncmp_lt_iff.mpr (by omega)]
      have hpow : (10:Nat) ^ (ls.length + 1) ≤ 10 ^ rs.length :=
        Nat.pow_le_pow_right (by omega) (by omega)
      simp only [List.length_cons] at hvl_lt
      have hv : digitsToNat (c :: ls) < digitsToNat (d :: rs) := by omega
      rw [ncmp_lt_iff.mpr hv]
      rfl
    · rw [ncmp_eq_iff.mpr (by omega)]
      have heq : cmpChars (c :: ls) (d :: rs)
          = ncmp (digitsToNat (c :: ls)) (digitsToNat (d :: rs)) :=
        cmpChars_digits_eq_ncmp _ _ (by simp [hlen]) hl hr
      rw [← heq]
      rfl
    · rw [ncmp_gt_iff.mpr (by omega)]
      have hpow : (10:Nat) ^ (rs.length + 1) ≤ 10 ^ ls.length :=
        Nat.pow_le_pow_right (by omega) (by omega)
      simp only [List.length_cons] at hvr_lt
      have hv : digitsToNat (d :: rs) < digitsToNat (c :: ls) := by omega
      rw [ncmp_gt_iff.mpr hv]
      rfl

theorem number_cmp_matches_value_witness :
    VersionPart.cmp (.Number ['1', '7']) (.Number ['2', '0'])
      = ncmp (digitsToNat ['1', '7']) (digitsToNat ['2', '0']) :=
  number_cmp_matches_value (by decide) (by decide) (by decide) (by decide)

/-- Claim C8 counterexample: `17` and `020` are runs of digits whose
numeric values satisfy 17 < 20, yet the part comparison (digit count
then raw digit text) returns Greater, so the comparison does not agree
with exact numeric value on all digit strings. -/
theorem number_cmp_value_counterexample :
    VersionPart.cmp (.Number ['1', '7']) (.Number ['0', '2', '0']) = .gt
    ∧ digitsToNat ['1', '7'] < digitsToNat ['0', '2', '0']
    ∧ (∀ c ∈ (['1', '7'] : List Char), c.isDigit)
    ∧ (∀ c ∈ (['0', '2', '0'] : List Char), c.isDigit) := by decide

/-! ### Association-list model of the trust store -/

def aget {α β : Type} [DecidableEq α] : List (α × β) → α → Option β
  | [], _ => none
  | (k, v) :: rest, a => if k = a then some v else aget rest a

/-- Insert-or-replace on an association list, returning the replaced
value as `BTreeMap::insert` does. -/
def aput {α β : Type} [DecidableEq α] : List (α × β) → α → β → List (α × β) × Option β
  | [], k, v => ([(k, v)], none)
  | (k', v') :: rest, k, v =>
    if k' = k then ((k, v) :: rest, some v')
    else
      let pr := aput rest k v
      ((k', v') :: pr.1, pr.2)

abbrev CriteriaMap (β : Type) := List (String × β)
abbrev DepMap (β : Type) := List (String × β)
abbrev VerMap (β : Type) := List (Version × β)

/-- `check.rs` `CheckResult`. -/
inductive CheckResult where
  | Validated
  | Missing
  | RecursionLimitReached
  | Violation
deriving DecidableEq, Repr

/-- `check.rs` `UnusedExempt`; the version is kept as its string
spelling, exactly as the code stores it. -/
structure UnusedExempt where
  name : String
  version : String
  criteria : String
deriving DecidableEq, Repr

/-- `check.rs` `Rules`.  A trust root is its `UsedMarker` contents:
`none` for ledger audits, `some b` for config exemptions with `b` the
current value of the atomic used-flag.  A trust delta is its parent
version.  A policy is its `require_all` set. -/
structure Rules where
  trust_roots : CriteriaMap (DepMap (VerMap (Option Bool)))
  trust_deltas : CriteriaMap (DepMap (VerMap Version))
  violations : CriteriaMap (DepMap (List Version))
  extra_unused : List UnusedExempt
  implied_all : CriteriaMap (List String)
  implied_any : CriteriaMap (List String)
  default_policy : List String
  policy : DepMap (List String)
deriving DecidableEq, Repr

/-- Triple lookup `map[criteria][name][version]`, the
`.get(..).and_then(..).and_then(..)` chains of `check_criteria`. -/
def aget3 {β : Type} (s : CriteriaMap (DepMap (VerMap β))) (criteria name : String)
    (version : Version) : Option β :=
  (aget s criteria).bind fun d => (aget d name).bind fun m => aget m version

/-- The violation test at the top of `check_criteria`. -/
def hasViolation (r : Rules) (criteria name : String) (version : Version) : Bool :=
  match (aget r.violations criteria).bind fun d => aget d name with
  | some vs => decide (version ∈ vs)
  | none => false

/-- Trust-root lookup with the ancestor-chain fallback (`check_criteria`
step 2): direct lookup under `criteria`, or else probe each ancestor
criterion, closest first. -/
def findRoot (r : Rules) (criteria : String) (chain : List String)
    (name : String) (version : Version) : Option (Option Bool) :=
  (aget3 r.trust_roots criteria name version).orElse fun _ =>
    chain.findSome? fun cr => aget3 r.trust_roots cr name version

/-- Trust-delta lookup with the same ancestor-chain fallback. -/
def findDelta (r : Rules) (criteria : String) (chain : List String)
    (name : String) (version : Version) : Option Version :=
  (aget3 r.trust_deltas criteria name version).orElse fun _ =>
    chain.findSome? fun cr => aget3 r.trust_deltas cr name version

/-- `check.rs` `Rules::check_criteria`, step for step: violations first,
then direct or ancestor trust roots, then the recursion-budget check,
then delta recursion, then `implied_all` and `implied_any` recursion
with the criterion pushed onto the ancestor chain and a decremented
budget. -/
def check_criteria (r : Rules) (name : String) (version : Version) (criteria : String)
    (implied_criteria : List String) (recursion_limit : Nat) : CheckResult :=
  if hasViolation r criteria name version then .Violation
  else if (findRoot r criteria implied_criteria name version).isSome then .Validated
  else
    match recursion_limit with
    | 0 => .RecursionLimitReached
    | n + 1 =>
      match findDelta r criteria implied_criteria name version with
      | some parent => check_criteria r name parent criteria implied_criteria n
      | none =>
        let all := (aget r.implied_all criteria).getD []
        if !all.isEmpty && all.all
            (fun c => decide (check_criteria r name version c
              (criteria :: implied_criteria) n = .Validated)) then .Validated
        else if ((aget r.implied_any criteria).getD []).any
            (fun c => decide (check_criteria r name version c
              (criteria :: implied_criteria) n = .Validated)) then .Validated
        else .Missing

/-- The versions of `name` having any trust root or delta under any
criterion, in store order (`find_prev`'s collection before the
`BTreeSet` sorts it). -/
def factVersions (r : Rules) (name : String) : List Version :=
  (((r.trust_roots.map Prod.snd).filterMap fun d => aget d name).map
      fun vm => vm.map Prod.fst).flatten
    ++ (((r.trust_deltas.map Prod.snd).filterMap fun d => aget d name).map
      fun vm => vm.map Prod.fst).flatten

/-- `check.rs` `Rules::find_prev`: give up at budget zero, otherwise
scan the sorted fact versions strictly below `version` in descending
order for the first that validates with a fresh chain and the
decremented budget. -/
def find_prev (r : Rules) (name : String) (version : Version) (criteria : String)
    (recursion_limit : Nat) : Option Version :=
  match recursion_limit with
  | 0 => none
  | n + 1 =>
    (((sortVersions (factVersions r name)).filter
        fun v => decide (Version.cmp v version = .lt)).reverse).find?
      fun p => decide (check_criteria r name p criteria [] n = .Validated)

/-- `check.rs` `FailReason`. -/
inductive FailReason where
  | Missing
  | RecursionLimitReached
  | Violation
deriving DecidableEq, Repr

/-- `check.rs` `Fail`. -/
structure Fail where
  needed : String
  reason : FailReason
  prev_version : Option Version
deriving DecidableEq, Repr

/-- `check.rs` `Status`. -/
inductive Status where
  | Passed
  | Failed (fails : List Fail)
deriving DecidableEq, Repr

/-- `check.rs` `Receipt`. -/
structure Receipt where
  name : String
  version : Version
  status : Status
deriving DecidableEq, Repr

/-- `check.rs` `Rules::get_policy`. -/
def Rules.get_policy (r : Rules) (name : String) : List String :=
  (aget r.policy name).getD r.default_policy

/-- `check.rs` `Rules::check`: evaluate every required criterion with a
fresh ancestor chain and the configured budget, collecting a `Fail`
(with a `find_prev` hint) for each non-validated result. -/
def Rules.check (r : Rules) (name : String) (version : Version)
    (recursion_limit : Nat) : Receipt :=
  let fails := (r.get_policy name).filterMap fun c =>
    match check_criteria r name version c [] recursion_limit with
    | .Validated => none
    | .Missing => some ⟨c, .Missing, find_prev r name version c recursion_limit⟩
    | .RecursionLimitReached =>
        some ⟨c, .RecursionLimitReached, find_prev r name version c recursion_limit⟩
    | .Violation => some ⟨c, .Violation, find_prev r name version c recursion_limit⟩
  { name := name, version := version,
    status := if fails.isEmpty then .Passed else .Failed fails }

def setInsertUE (out : List UnusedExempt) (e : UnusedExempt) : List UnusedExempt :=
  if e ∈ out then out else out ++ [e]

def collectVM (criteria dep : String) :
    VerMap (Option Bool) → List UnusedExempt → List UnusedExempt
  | [], out => out
  | (version, used) :: rest, out =>
    collectVM criteria dep rest
      (match used with
       | some b =>
         if b then out else setInsertUE out ⟨dep, Version.toString version, criteria⟩
       | none => out)

def collectDM (criteria : String) :
    DepMap (VerMap (Option Bool)) → List UnusedExempt → List UnusedExempt
  | [], out => out
  | (dep, vm) :: rest, out => collectDM criteria rest (collectVM criteria dep vm out)

def collectCM :
    CriteriaMap (DepMap (VerMap (Option Bool))) → List UnusedExempt → List UnusedExempt
  | [], out => out
  | (criteria, dm) :: rest, out => collectCM rest (collectDM criteria dm out)

/-- `check.rs` `Rules::unused_exempts`: start from `extra_unused` and
add every trust root whose marker is present and still false. -/
def Rules.unused_exempts (r : Rules) : List UnusedExempt :=
  collectCM r.trust_roots r.extra_unused

/-- Effect on the store of a check run's `mark_used` calls: `M` is the
set of root keys whose markers the run set; markers (present only on
exemptions) are monotonically ORed, which is all the relaxed atomic
store can do. -/
def applyMarks (r : Rules) (M : String → String → Version → Bool) : Rules :=
  { r with trust_roots := r.trust_roots.map fun cd =>
      (cd.1, cd.2.map fun dv =>
        (dv.1, dv.2.map fun vu =>
          (vu.1, vu.2.map fun b => b || M cd.1 dv.1 vu.1))) }

/-! ### Construction of the rules (`Rules::new`) -/

/-- `check.rs` `Criteria`: the three edge sets of a criterion
declaration, already normalized to string sets by deserialization. -/
structure Criteria where
  implies : List String
  implied_all : List String
  implied_any : List String
deriving DecidableEq, Repr

/-- `check.rs` `Audit`: an exemption or ledger entry.  The `delta` field
is the raw `"<version> -> <version>"` string, parsed by `parse_delta`. -/
structure Audit where
  criteria : String
  delta : Option String
  version : Option String
  violation : Option String
  allow_unused : Bool
deriving DecidableEq, Repr

/-- `check.rs` `Config`; a `PolicyLayer` is its optional `require_all`. -/
structure Config where
  criteria : CriteriaMap Criteria
  default_policy : Option (List String)
  policy : DepMap (Option (List String))
  exempt : DepMap (List Audit)

/-- `check.rs` `Audits`. -/
structure Audits where
  criteria : CriteriaMap Criteria
  audits : DepMap (List Audit)

/-- `types.rs` `Error`, restricted to the one variant `Rules::new` can
produce; the remaining variants concern file I/O outside the engine. -/
inductive Error where
  | ParseDelta : String → Error
deriving DecidableEq, Repr

/-- `str::split_once("->")`: split at the first arrow. -/
def splitOnceArrow : List Char → Option (List Char × List Char)
  | [] => none
  | '-' :: '>' :: rest => some ([], rest)
  | c :: rest => (splitOnceArrow rest).map fun pr => (c :: pr.1, pr.2)

def isAsciiWs (c : Char) : Bool :=
  c == ' ' || c == '\t' || c == '\n' || c == '\r' || c == Char.ofNat 12

/-- Rust `trim_ascii`. -/
def trimAscii (l : List Char) : List Char :=
  ((l.dropWhile isAsciiWs).reverse.dropWhile isAsciiWs).reverse

/-- `check.rs` `parse_delta`. -/
def parse_delta (delta : String) : Except Error (Version × Version) :=
  match splitOnceArrow delta.data with
  | none => .error (.ParseDelta delta)
  | some pr => .ok (parseParts (trimAscii pr.1), parseParts (trimAscii pr.2))

def setInsertStr (s : List String) (x : String) : List String :=
  if x ∈ s then s else s ++ [x]

/-- `BTreeSet::append` on string sets. -/
def setUnionStr (s t : List String) : List String := t.foldl setInsertStr s

/-- `entry(k).or_default()` followed by modifying the entry with `f`. -/
def aupdate {α β : Type} [DecidableEq α] (m : List (α × β)) (k : α) (d : β) (f : β → β) :
    List (α × β) :=
  match aget m k with
  | some v => (aput m k (f v)).1
  | none => (aput m k (f d)).1

/-- `BTreeMap::append`: overlay entries replace base entries. -/
def mergeA {β : Type} (base overlay : List (String × β)) : List (String × β) :=
  overlay.foldl (fun acc kv => (aput acc kv.1 kv.2).1) base

/-- One iteration of the criteria-graph compilation loop of
`Rules::new`: invert this criterion's `implies` into `implied_any`,
record its `implied_all`, and merge its declared `implied_any` set. -/
def buildImpliedStep (maps : CriteriaMap (List String) × CriteriaMap (List String))
    (entry : String × Criteria) :
    CriteriaMap (List String) × CriteriaMap (List String) :=
  let iy := entry.2.implies.foldl
    (fun iy i => aupdate iy i [] fun s => setInsertStr s entry.1) maps.2
  let ia := (aput maps.1 entry.1 entry.2.implied_all).1
  let iy := aupdate iy entry.1 [] fun s => setUnionStr s entry.2.implied_any
  (ia, iy)

/-- The criteria-graph compilation loop of `Rules::new`. -/
def buildImplied (cs : CriteriaMap Criteria) :
    CriteriaMap (List String) × CriteriaMap (List String) :=
  cs.foldl buildImpliedStep ([], [])

/-- Nested `entry(..).or_default()` insertion into a three-level map,
returning the replaced leaf, as the `Rules::new` loops do. -/
def aput3 {β : Type} (s : CriteriaMap (DepMap (VerMap β))) (criteria name : String)
    (version : Version) (val : β) :
    CriteriaMap (DepMap (VerMap β)) × Option β :=
  let d := (aget s criteria).getD []
  let vm := (aget d name).getD []
  let pr := aput vm version val
  let d' := (aput d name pr.1).1
  ((aput s criteria d').1, pr.2)

/-- The exemption loop of `Rules::new`: each config exemption with a
`version` becomes a trust root whose marker starts at its
`allow_unused` flag. -/
def buildExemptRoots (exempt : DepMap (List Audit)) :
    CriteriaMap (DepMap (VerMap (Option Bool))) :=
  exempt.foldl
    (fun tr entry =>
      entry.2.foldl
        (fun tr a =>
          match a.version with
          | some vs => (aput3 tr a.criteria entry.1 (Version.new vs) (some a.allow_unused)).1
          | none => tr)
        tr)
    []

/-- Accumulator of the audits loop of `Rules::new`. -/
structure BuildSt where
  tr : CriteriaMap (DepMap (VerMap (Option Bool)))
  td : CriteriaMap (DepMap (VerMap Version))
  vio : CriteriaMap (DepMap (List Version))
  xu : List UnusedExempt

def setInsertVer (s : List Version) (v : Version) : List Version :=
  if v ∈ s then s else s ++ [v]

/-- `violations.entry(c).or_default().entry(n).or_default().insert(v)`. -/
def insertVio (s : CriteriaMap (DepMap (List Version))) (criteria name : String)
    (version : Version) : CriteriaMap (DepMap (List Version)) :=
  let d := (aget s criteria).getD []
  let vset := (aget d name).getD []
  let d' := (aput d name (setInsertVer vset version)).1
  (aput s criteria d').1

/-- The root insertion of the audits loop: a ledger audit with a
`version` becomes a markerless trust root; if it replaces a root that
carried a marker (a config exemption), that exemption is recorded as
`extra_unused` regardless of its flag. -/
def stepVersion (st : BuildSt) (name : String) (a : Audit) : BuildSt :=
  match a.version with
  | some vs =>
    let pr := aput3 st.tr a.criteria name (Version.new vs) none
    let xu :=
      match pr.2 with
      | some m => if m.isSome then setInsertUE st.xu ⟨name, vs, a.criteria⟩ else st.xu
      | none => st.xu
    { st with tr := pr.1, xu := xu }
  | none => st

/-- The violation insertion of the audits loop. -/
def stepViolation (st : BuildSt) (name : String) (a : Audit) : BuildSt :=
  match a.violation with
  | some vs => { st with vio := insertVio st.vio a.criteria name (Version.new vs) }
  | none => st

/-- One audit of the `Rules::new` audits loop: delta edge (parsing its
string, which can fail), then version root with superseding check, then
violation. -/
def addAuditEntry (st : BuildSt) (name : String) (a : Audit) : Except Error BuildSt :=
  match a.delta with
  | some d =>
    match parse_delta d with
    | .error e => .error e
    | .ok pr =>
      .ok (stepViolation (stepVersion
        { st with td := (aput3 st.td a.criteria name pr.2 pr.1).1 } name a) name a)
  | none => .ok (stepViolation (stepVersion st name a) name a)

def processAuditList (st : BuildSt) (name : String) : List Audit → Except Error BuildSt
  | [] => .ok st
  | a :: rest =>
    match addAuditEntry st name a with
    | .error e => .error e
    | .ok st' => processAuditList st' name rest

def processAudits (st : BuildSt) : DepMap (List Audit) → Except Error BuildSt
  | [] => .ok st
  | entry :: rest =>
    match processAuditList st entry.1 entry.2 with
    | .error e => .error e
    | .ok st' => processAudits st' rest

/-- `check.rs` `Rules::new`: merge criteria (config wins), compile the
implication maps, seed trust roots from config exemptions, fold the
ledger audits in, and resolve the policies. -/
def Rules.new (config : Config) (audits : Audits) : Except Error Rules :=
  let criteria := mergeA audits.criteria config.criteria
  let maps := buildImplied criteria
  let tr0 := buildExemptRoots config.exempt
  match processAudits ⟨tr0, [], [], []⟩ audits.audits with
  | .error e => .error e
  | .ok st =>
    let default_policy := config.default_policy.getD ["safe-to-deploy"]
    .ok {
      trust_roots := st.tr
      trust_deltas := st.td
      violations := st.vio
      extra_unused := st.xu
      implied_all := maps.1
      implied_any := maps.2
      default_policy := default_policy
      policy := config.policy.map fun dp => (dp.1, dp.2.getD default_policy) }

/-! ### Violation precedence and delta chains -/

/-- Claim C3: a recorded violation for (criterion, name, version) forces
`check_criteria` to `Violation`, regardless of any trust root, delta or
implication edge for the same triple, and of the recursion budget and
ancestor chain. -/
theorem violation_always_wins (r : Rules) (name : String) (version : Version)
    (criteria : String) (chain : List String) (limit : Nat)
    (h : hasViolation r criteria name version = true) :
    check_criteria r name version criteria chain limit = .Violation := by
  cases limit <;> simp [check_criteria, h]

/-- A store with a violation and a trust root at the same key. -/
def rulesC3 : Rules :=
  { trust_roots := [("yote", [("yip", [(Version.new "0.3.0", none)])])],
    trust_deltas := [],
    violations := [("yote", [("yip", [Version.new "0.3.0"])])],
    extra_unused := [], implied_all := [], implied_any := [],
    default_policy := ["yote"], policy := [] }

theorem violation_always_wins_witness :
    check_criteria rulesC3 "yip" (Version.new "0.3.0") "yote" ["other"] 621 = .Violation :=
  violation_always_wins rulesC3 "yip" (Version.new "0.3.0") "yote" ["other"] 621 (by decide)

/-- The minimal store of claim C2: one trust root at `v0` and one delta
`v1 → v0`, both under criterion `C` for package `P`; no violations. -/
def deltaRules (C P : String) (v0 v1 : Version) (m : Option Bool) : Rules :=
  { trust_roots := [(C, [(P, [(v0, m)])])],
    trust_deltas := [(C, [(P, [(v1, v0)])])],
    violations := [], extra_unused := [], implied_all := [], implied_any := [],
    default_policy := [], policy := [] }

/-- Claim C2: with a trust root for `(C, P, v0)`, a delta
`(C, P, v1 → v0)` and no violation for these keys, checking `(C, P, v1)`
with budget at least two returns `Validated`, and with budget zero
returns `RecursionLimitReached`. -/
theorem delta_chain_budget (C P : String) (v0 v1 : Version) (m : Option Bool)
    (hne : v1 ≠ v0) :
    (∀ limit, 2 ≤ limit →
      check_criteria (deltaRules C P v0 v1 m) P v1 C [] limit = .Validated)
    ∧ check_criteria (deltaRules C P v0 v1 m) P v1 C [] 0 = .RecursionLimitReached := by
  constructor
  · intro limit hlim
    obtain ⟨k, rfl⟩ : ∃ k, limit = k + 2 := ⟨limit - 2, by omega⟩
    simp [check_criteria, deltaRules, hasViolation, findRoot, findDelta, aget3, aget,
      Ne.symm hne, Option.orElse]
  · simp [check_criteria, deltaRules, hasViolation, findRoot, findDelta, aget3, aget,
      Ne.symm hne, Option.orElse]

theorem delta_chain_budget_witness :
    check_criteria (deltaRules "safe-to-deploy" "p" (Version.new "1.0.0")
        (Version.new "1.0.1") none) "p" (Version.new "1.0.1") "safe-to-deploy" [] 2
      = .Validated
    ∧ check_criteria (deltaRules "safe-to-deploy" "p" (Version.new "1.0.0")
        (Version.new "1.0.1") none) "p" (Version.new "1.0.1") "safe-to-deploy" [] 0
      = .RecursionLimitReached :=
  ⟨(delta_chain_budget "safe-to-deploy" "p" (Version.new "1.0.0") (Version.new "1.0.1")
      none (by decide)).1 2 (by decide),
   (delta_chain_budget "safe-to-deploy" "p" (Version.new "1.0.0") (Version.new "1.0.1")
      none (by decide)).2⟩

/-! ### Termination of the resolver (gas-indexed evaluation) -/

def allValidatedGas (f : String → Option CheckResult) : List String → Option Bool
  | [] => some true
  | c :: rest =>
    match f c with
    | none => none
    | some res => if res = .Validated then allValidatedGas f rest else some false

def anyValidatedGas (f : String → Option CheckResult) : List String → Option Bool
  | [] => some false
  | c :: rest =>
    match f c with
    | none => none
    | some res => if res = .Validated then some true else anyValidatedGas f rest

/-- Gas-indexed evaluator of `check_criteria`: one unit of gas is spent
per unfolding of the recursion, `none` meaning the gas ran out before
the computation finished.  A `some` answer therefore bounds the depth
of the recursion tree by the gas supplied. -/
def check_gas (gas : Nat) (r : Rules) (name : String) (version : Version)
    (criteria : String) (chain : List String) (limit : Nat) : Option CheckResult :=
  match gas with
  | 0 => none
  | g + 1 =>
    if hasViolation r criteria name version then some .Violation
    else if (findRoot r criteria chain name version).isSome then some .Validated
    else
      match limit with
      | 0 => some .RecursionLimitReached
      | n + 1 =>
        match findDelta r criteria chain name version with
        | some parent => check_gas g r name parent criteria chain n
        | none =>
          let all := (aget r.implied_all criteria).getD []
          match allValidatedGas
              (fun c => check_gas g r name version c (criteria :: chain) n) all with
          | none => none
          | some allHold =>
            if !all.isEmpty && allHold then some .Validated
            else
              match anyValidatedGas
                  (fun c => check_gas g r name version c (criteria :: chain) n)
                  ((aget r.implied_any criteria).getD []) with
              | none => none
              | some anyHold => if anyHold then some .Validated else some .Missing

theorem allValidatedGas_eq (f : String → Option CheckResult) (h : String → CheckResult)
    (hf : ∀ c, f c = some (h c)) :
    ∀ cs, allValidatedGas f cs = some (cs.all fun c => decide (h c = .Validated)) := by
  intro cs
  induction cs with
  | nil => rfl
  | cons c rest ih =>
    simp only [allValidatedGas, hf c, List.all_cons]
    by_cases hv : h c = .Validated
    · simp [hv, ih]
    · simp [hv]

theorem anyValidatedGas_eq (f : String → Option CheckResult) (h : String → CheckResult)
    (hf : ∀ c, f c = some (h c)) :
    ∀ cs, anyValidatedGas f cs = some (cs.any fun c => decide (h c = .Validated)) := by
  intro cs
  induction cs with
  | nil => rfl
  | cons c rest ih =>
    simp only [anyValidatedGas, hf c, List.any_cons]
    by_cases hv : h c = .Validated
    · simp [hv]
    · simp [hv, ih]

/-- Claim C5: `check_criteria` terminates on every input.  For every
trust store — cyclic implication graphs and delta chains included —
every dependency, version, criterion, ancestor chain and finite budget,
the gas-indexed evaluator finishes (returns `some`, never exhausting
its gas) once the gas exceeds the budget, and computes exactly
`check_criteria`; every recursive call (delta step, `implied_all`
member, `implied_any` member) runs at a strictly smaller budget. -/
theorem check_criteria_terminates :
    ∀ gas r name version criteria chain limit, limit < gas →
      check_gas gas r name version criteria chain limit
        = some (check_criteria r name version criteria chain limit) := by
  intro gas
  induction gas with
  | zero => intro r name version criteria chain limit h; omega
  | succ g ih =>
    intro r name version criteria chain limit h
    cases limit with
    | zero =>
      by_cases hv : hasViolation r criteria name version = true
      · simp [check_gas, check_criteria, hv]
      · by_cases hr : (findRoot r criteria chain name version).isSome = true
        · simp [check_gas, check_criteria, hv, hr]
        · simp [check_gas, check_criteria, hv, hr]
    | succ n =>
      have hng : n < g := by omega
      by_cases hv : hasViolation r criteria name version = true
      · simp [check_gas, check_criteria, hv]
      · by_cases hr : (findRoot r criteria chain name version).isSome = true
        · simp [check_gas, check_criteria, hv, hr]
        · cases hd : findDelta r criteria chain name version with
          | some parent =>
            simp only [check_gas, check_criteria, hv, hr, hd, if_false,
              Bool.false_eq_true]
            exact ih r name parent criteria chain n hng
          | none =>
            have hall := allValidatedGas_eq
              (fun c => check_gas g r name version c (criteria :: chain) n)
              (fun c => check_criteria r name version c (criteria :: chain) n)
              (fun c => ih r name version c (criteria :: chain) n hng)
              ((aget r.implied_all criteria).getD [])
            have hany := anyValidatedGas_eq
              (fun c => check_gas g r name version c (criteria :: chain) n)
              (fun c => check_criteria r name version c (criteria :: chain) n)
              (fun c => ih r name version c (criteria :: chain) n hng)
              ((aget r.implied_any criteria).getD [])
            simp only [check_gas, check_criteria, hv, hr, hd, if_false,
              Bool.false_eq_true, hall, hany]
            by_cases h1 : (!((aget r.implied_all criteria).getD []).isEmpty
                && ((aget r.implied_all criteria).getD []).all
                  (fun c => decide (check_criteria r name version c
                    (criteria :: chain) n = .Validated))) = true
            · simp [h1]
            · simp only [h1, if_false, Bool.false_eq_true]
              by_cases h2 : (((aget r.implied_any criteria).getD []).any
                  (fun c => decide (check_criteria r name version c
                    (criteria :: chain) n = .Validated))) = true
              · simp [h2]
              · simp [h2]

/-- A store with a delta cycle `1.1 → 1.1`, on which only the budget
stops the recursion. -/
def rulesC5 : Rules :=
  { trust_roots := [("C", [("P", [(Version.new "1.0", none)])])],
    trust_deltas := [("C", [("P", [(Version.new "1.1", Version.new "1.1")])])],
    violations := [], extra_unused := [], implied_all := [], implied_any := [],
    default_policy := ["C"], policy := [] }

theorem check_criteria_terminates_witness :
    check_gas 4 rulesC5 "P" (Version.new "1.1") "C" [] 3
      = some (check_criteria rulesC5 "P" (Version.new "1.1") "C" [] 3) :=
  check_criteria_terminates 4 rulesC5 "P" (Version.new "1.1") "C" [] 3 (by decide)

/-! ### Association-list facts and the compiled implication maps -/

theorem aget_aput_self {α β : Type} [DecidableEq α] :
    ∀ (m : List (α × β)) (k : α) (v : β), aget (aput m k v).1 k = some v := by
  intro m k v
  induction m with
  | nil => simp [aput, aget]
  | cons kv rest ih =>
    obtain ⟨k1, v1⟩ := kv
    by_cases h : k1 = k
    · subst h; simp [aput, aget]
    · simp [aput, aget, h, ih]

theorem aget_aput_other {α β : Type} [DecidableEq α] :
    ∀ (m : List (α × β)) (k k' : α) (v : β), k ≠ k' →
      aget (aput m k v).1 k' = aget m k' := by
  intro m k k' v h
  induction m with
  | nil => simp [aput, aget, h]
  | cons kv rest ih =>
    obtain ⟨k1, v1⟩ := kv
    by_cases h1 : k1 = k
    · subst h1; simp [aput, aget, h]
    · simp [aput, aget, h1, ih]

theorem aput_old {α β : Type} [DecidableEq α] :
    ∀ (m : List (α × β)) (k : α) (v : β), (aput m k v).2 = aget m k := by
  intro m k v
  induction m with
  | nil => simp [aput, aget]
  | cons kv rest ih =>
    obtain ⟨k1, v1⟩ := kv
    by_cases h : k1 = k
    · subst h; simp [aput, aget]
    · simp [aput, aget, h, ih]

/-- Membership in the string set stored at key `k` of a compiled map. -/
def memIA (m : CriteriaMap (List String)) (k x : String) : Prop :=
  x ∈ (aget m k).getD []

theorem mem_setInsertStr_self (s : List String) (x : String) : x ∈ setInsertStr s x := by
  unfold setInsertStr
  by_cases h : x ∈ s <;> simp [h]

theorem mem_setInsertStr_mono {s : List String} {x : String} (y : String)
    (h : x ∈ s) : x ∈ setInsertStr s y := by
  unfold setInsertStr
  by_cases hy : y ∈ s <;> simp [hy, h]

theorem mem_foldl_setInsertStr {x : String} :
    ∀ (t s : List String), x ∈ s → x ∈ t.foldl setInsertStr s := by
  intro t
  induction t with
  | nil => intro s h; exact h
  | cons y rest ih => intro s h; exact ih _ (mem_setInsertStr_mono y h)

theorem mem_setUnionStr_left {s : List String} {x : String} (t : List String)
    (h : x ∈ s) : x ∈ setUnionStr s t :=
  mem_foldl_setInsertStr t s h

theorem memIA_aupdate_preserve {m : CriteriaMap (List String)} {k x : String}
    (k' : String) (f : List String → List String)
    (hf : ∀ s, x ∈ s → x ∈ f s) (h : memIA m k x) :
    memIA (aupdate m k' [] f) k x := by
  unfold memIA aupdate at *
  by_cases hk : k' = k
  · subst hk
    cases hm : aget m k' with
    | none => rw [hm] at h; simp at h
    | some v =>
      rw [hm] at h
      have hv : x ∈ v := by simpa using h
      show x ∈ (aget (aput m k' (f v)).1 k').getD []
      rw [aget_aput_self]
      exact hf v hv
  · cases hm : aget m k' with
    | none =>
      show x ∈ (aget (aput m k' (f [])).1 k).getD []
      rw [aget_aput_other _ _ _ _ hk]
      exact h
    | some v =>
      show x ∈ (aget (aput m k' (f v)).1 k).getD []
      rw [aget_aput_other _ _ _ _ hk]
      exact h

theorem memIA_aupdate_self {m : CriteriaMap (List String)} {k x : String}
    (f : List String → List String)
    (h : x ∈ f ((aget m k).getD [])) :
    memIA (aupdate m k [] f) k x := by
  unfold memIA aupdate
  cases hm : aget m k with
  | none =>
    show x ∈ (aget (aput m k (f [])).1 k).getD []
    rw [aget_aput_self]
    rw [hm] at h
    simpa using h
  | some v =>
    show x ∈ (aget (aput m k (f v)).1 k).getD []
    rw [aget_aput_self]
    rw [hm] at h
    simpa using h

theorem memIA_impliesFold_preserve (name : String) :
    ∀ (imps : List String) (iy : CriteriaMap (List String)) {k x : String},
      memIA iy k x →
      memIA (imps.foldl (fun iy i => aupdate iy i [] fun s => setInsertStr s name) iy) k x := by
  intro imps
  induction imps with
  | nil => intro iy k x h; exact h
  | cons i rest ih =>
    intro iy k x h
    simp only [List.foldl_cons]
    exact ih _ (memIA_aupdate_preserve i _ (fun s hs => mem_setInsertStr_mono name hs) h)

theorem memIA_impliesFold_insert (name : String) :
    ∀ (imps : List String) (iy : CriteriaMap (List String)) {B : String},
      B ∈ imps →
      memIA (imps.foldl (fun iy i => aupdate iy i [] fun s => setInsertStr s name) iy)
        B name := by
  intro imps
  induction imps with
  | nil => intro iy B h; simp at h
  | cons i rest ih =>
    intro iy B h
    simp only [List.foldl_cons]
    rcases List.mem_cons.mp h with rfl | h
    · apply memIA_impliesFold_preserve
      exact memIA_aupdate_self _ (mem_setInsertStr_self _ name)
    · exact ih _ h

theorem buildImpliedStep_preserve {k x : String}
    (maps : CriteriaMap (List String) × CriteriaMap (List String))
    (entry : String × Criteria) (h : memIA maps.2 k x) :
    memIA (buildImpliedStep maps entry).2 k x := by
  unfold buildImpliedStep
  apply memIA_aupdate_preserve _ _ (fun s hs => mem_setUnionStr_left _ hs)
  exact memIA_impliesFold_preserve entry.1 entry.2.implies maps.2 h

theorem buildImplied_fold_preserve {k x : String} :
    ∀ (cs : CriteriaMap Criteria) maps, memIA maps.2 k x →
      memIA (cs.foldl buildImpliedStep maps).2 k x := by
  intro cs
  induction cs with
  | nil => intro maps h; exact h
  | cons e rest ih =>
    intro maps h
    simp only [List.foldl_cons]
    exact ih _ (buildImpliedStep_preserve _ _ h)

/-- An `implies` declaration lands in the compiled `implied_any` map:
if `(A, cdef)` is declared and `B ∈ cdef.implies` then `A` is in
`implied_any[B]`. -/
theorem buildImplied_any_mem {A B : String} {cdef : Criteria} :
    ∀ (cs : CriteriaMap Criteria) maps,
      (A, cdef) ∈ cs → B ∈ cdef.implies →
      memIA (cs.foldl buildImpliedStep maps).2 B A := by
  intro cs
  induction cs with
  | nil => intro maps h _; simp at h
  | cons e rest ih =>
    intro maps h himp
    simp only [List.foldl_cons]
    rcases List.mem_cons.mp h with rfl | h
    · apply buildImplied_fold_preserve rest
      unfold buildImpliedStep
      apply memIA_aupdate_preserve _ _ (fun s hs => mem_setUnionStr_left _ hs)
      exact memIA_impliesFold_insert A cdef.implies maps.2 himp
    · exact ih _ h himp

instance exceptDecEq {e a : Type} [DecidableEq e] [DecidableEq a] :
    DecidableEq (Except e a)
  | .ok x, .ok y =>
    if h : x = y then isTrue (h ▸ rfl) else isFalse fun hh => h (Except.ok.inj hh)
  | .error x, .error y =>
    if h : x = y then isTrue (h ▸ rfl) else isFalse fun hh => h (Except.error.inj hh)
  | .ok _, .error _ => isFalse fun hh => Except.noConfusion hh
  | .error _, .ok _ => isFalse fun hh => Except.noConfusion hh

/-- Claim C4: if criterion `A`'s declared `implies` set contains `B`,
then in the compiled rules with no violations recorded, a trust root
for `(A, P, v)` makes `check_criteria` on `(B, P, v)` with a fresh
ancestor chain and a positive recursion budget return `Validated`,
even though no trust record (root or delta) exists under `B` itself. -/
theorem implies_validates (config : Config) (audits : Audits) (r : Rules)
    (A B P : String) (v : Version) (cdef : Criteria) (limit : Nat)
    (hnew : Rules.new config audits = .ok r)
    (hdecl : (A, cdef) ∈ mergeA audits.criteria config.criteria)
    (himp : B ∈ cdef.implies)
    (hnov : r.violations = [])
    (hroot : (aget3 r.trust_roots A P v).isSome)
    (hrootB : aget3 r.trust_roots B P v = none)
    (hdelB : aget3 r.trust_deltas B P v = none)
    (hlim : 1 ≤ limit) :
    check_criteria r P v B [] limit = .Validated := by
  have hr_any : r.implied_any
      = (buildImplied (mergeA audits.criteria config.criteria)).2 := by
    simp only [Rules.new] at hnew
    cases hp : processAudits ⟨buildExemptRoots config.exempt, [], [], []⟩ audits.audits with
    | error e => rw [hp] at hnew; simp at hnew
    | ok st =>
      rw [hp] at hnew
      simp only [Except.ok.injEq] at hnew
      rw [← hnew]
  have hmem : A ∈ (aget r.implied_any B).getD [] := by
    rw [hr_any]
    exact buildImplied_any_mem (mergeA audits.criteria config.criteria) ([], []) hdecl himp
  obtain ⟨k, rfl⟩ : ∃ k, limit = k + 1 := ⟨limit - 1, by omega⟩
  have hviol : ∀ c, hasViolation r c P v = false := by
    intro c
    simp [hasViolation, hnov, aget]
  have hrootB' : findRoot r B [] P v = none := by
    simp [findRoot, hrootB, Option.orElse]
  have hdelB' : findDelta r B [] P v = none := by
    simp [findDelta, hdelB, Option.orElse]
  have hA : check_criteria r P v A [B] k = .Validated := by
    obtain ⟨mk, hmk⟩ := Option.isSome_iff_exists.mp hroot
    have hrootA : findRoot r A [B] P v = some mk := by
      simp [findRoot, hmk, Option.orElse]
    cases k <;> simp [check_criteria, hviol A, hrootA]
  simp only [check_criteria, hviol B, hrootB', hdelB', Option.isSome_none,
    Bool.false_eq_true, if_false]
  by_cases hall : (!((aget r.implied_all B).getD []).isEmpty
      && ((aget r.implied_all B).getD []).all
        (fun c => decide (check_criteria r P v c [B] k = .Validated))) = true
  · simp [hall]
  · have hany : ((aget r.implied_any B).getD []).any
        (fun c => decide (check_criteria r P v c [B] k = .Validated)) = true :=
      List.any_eq_true.mpr ⟨A, hmem, by simp [hA]⟩
    simp [hall, hany]

/-- The compiled rules of the C4 witness scenario: criterion `A`
declares `implies = [B]` and the ledger holds a full audit of `P 1.0`
under `A`. -/
def rulesC4 : Rules :=
  { trust_roots := [("A", [("P", [(Version.new "1.0", none)])])],
    trust_deltas := [], violations := [], extra_unused := [],
    implied_all := [("A", [])],
    implied_any := [("B", ["A"]), ("A", [])],
    default_policy := ["safe-to-deploy"], policy := [] }

def configC4 : Config :=
  { criteria := [("A", { implies := ["B"], implied_all := [], implied_any := [] })],
    default_policy := none, policy := [], exempt := [] }

def auditC4 : Audit :=
  { criteria := "A", delta := none, version := some "1.0",
    violation := none, allow_unused := false }

def auditsC4 : Audits :=
  { criteria := [], audits := [("P", [auditC4])] }

theorem implies_validates_witness :
    check_criteria rulesC4 "P" (Version.new "1.0") "B" [] 621 = .Validated :=
  implies_validates configC4 auditsC4 rulesC4 "A" "B" "P" (Version.new "1.0")
    { implies := ["B"], implied_all := [], implied_any := [] } 621
    (by decide) (by decide) (by decide) (by decide) (by decide) (by decide) (by decide)
    (by decide)

/-! ### Sortedness of the collected version set -/

/-- Strict ascending order by `Version.cmp`. -/
def VSorted (l : List Version) : Prop :=
  l.Pairwise fun a b => Version.cmp a b = .lt

theorem mem_insertSorted {x v : Version} :
    ∀ l : List Version, x ∈ insertSorted v l ↔ x = v ∨ x ∈ l := by
  intro l
  induction l with
  | nil => simp [insertSorted]
  | cons y rest ih =>
    simp only [insertSorted]
    cases hc : Version.cmp v y with
    | lt => simp [List.mem_cons]
    | eq =>
      have hveq : v = y := vcmp_eq_iff.mp hc
      subst hveq
      simp [List.mem_cons]
    | gt =>
      simp only [List.mem_cons, ih]
      tauto

theorem insertSorted_sorted {v : Version} :
    ∀ {l : List Version}, VSorted l → VSorted (insertSorted v l) := by
  intro l
  induction l with
  | nil => intro _; simp [insertSorted, VSorted]
  | cons y rest ih =>
    intro hs
    rw [VSorted, List.pairwise_cons] at hs
    obtain ⟨hy, hrest⟩ := hs
    simp only [insertSorted]
    cases hc : Version.cmp v y with
    | lt =>
      rw [VSorted, List.pairwise_cons]
      refine ⟨?_, ?_⟩
      · intro b hb
        rcases List.mem_cons.mp hb with rfl | hb
        · exact hc
        · exact vcmp_trans hc (hy b hb)
      · rw [List.pairwise_cons]
        exact ⟨hy, hrest⟩
    | eq =>
      rw [VSorted, List.pairwise_cons]
      exact ⟨hy, hrest⟩
    | gt =>
      rw [VSorted, List.pairwise_cons]
      refine ⟨?_, ih hrest⟩
      intro b hb
      rcases (mem_insertSorted rest).mp hb with rfl | hb
      · have hsw := vcmp_swap b y
        rw [hc] at hsw
        simpa using hsw
      · exact hy b hb

theorem mem_sortVersions {x : Version} : ∀ l, x ∈ sortVersions l ↔ x ∈ l := by
  intro l
  unfold sortVersions
  induction l with
  | nil => simp
  | cons v rest ih =>
    simp only [List.foldr_cons, mem_insertSorted, List.mem_cons, ih]

theorem sortVersions_sorted : ∀ l, VSorted (sortVersions l) := by
  intro l
  unfold sortVersions
  induction l with
  | nil => simp [VSorted]
  | cons v rest ih => exact insertSorted_sorted ih

/-- In a descending list, `find?` returns a maximum among the elements
satisfying the predicate. -/
theorem find_desc_max {p : Version → Bool} :
    ∀ {l : List Version}, l.Pairwise (fun a b => Version.cmp b a = .lt) →
      ∀ {w}, l.find? p = some w →
        p w = true ∧ w ∈ l ∧ ∀ u ∈ l, p u = true → Version.cmp w u ≠ .lt := by
  intro l
  induction l with
  | nil => intro _ w h; simp at h
  | cons y rest ih =>
    intro hs w hf
    rw [List.pairwise_cons] at hs
    obtain ⟨hy, hrest⟩ := hs
    by_cases hp : p y = true
    · rw [List.find?_cons_of_pos _ hp] at hf
      obtain rfl := Option.some.inj hf
      refine ⟨hp, by simp, ?_⟩
      intro u hu hpu
      rcases List.mem_cons.mp hu with rfl | hu
      · rw [vcmp_eq_iff.mpr rfl]; simp
      · have h1 := hy u hu
        have hsw := vcmp_swap u y
        rw [h1] at hsw
        rw [hsw]
        decide
    · rw [List.find?_cons_of_neg _ hp] at hf
      obtain ⟨h1, h2, h3⟩ := ih hrest hf
      refine ⟨h1, by simp [h2], ?_⟩
      intro u hu hpu
      rcases List.mem_cons.mp hu with rfl | hu
      · exact absurd hpu hp
      · exact h3 u hu hpu

/-- Claim C6: `find_prev` returns `none` when the budget is zero;
otherwise it considers exactly the versions of `name` having any trust
root or trust delta under any criterion, and returns the largest
considered version strictly below the queried one that validates for
the criterion with a fresh ancestor chain and the budget less one — or
`none` when no considered version validates. -/
theorem find_prev_characterization :
    (∀ r name version criteria, find_prev r name version criteria 0 = none)
    ∧ (∀ r name version criteria n w,
        find_prev r name version criteria (n + 1) = some w →
          w ∈ factVersions r name
          ∧ Version.cmp w version = .lt
          ∧ check_criteria r name w criteria [] n = .Validated
          ∧ ∀ u, u ∈ factVersions r name → Version.cmp u version = .lt →
              check_criteria r name u criteria [] n = .Validated →
              Version.cmp w u ≠ .lt)
    ∧ (∀ r name version criteria n,
        find_prev r name version criteria (n + 1) = none →
          ∀ u, u ∈ factVersions r name → Version.cmp u version = .lt →
            check_criteria r name u criteria [] n ≠ .Validated) := by
  have hsortedrev : ∀ r name version,
      (((sortVersions (factVersions r name)).filter
          fun v => decide (Version.cmp v version = .lt)).reverse).Pairwise
        (fun a b => Version.cmp b a = .lt) := by
    intro r name version
    rw [List.pairwise_reverse]
    exact List.Pairwise.filter _ (sortVersions_sorted (factVersions r name))
  have hmemrev : ∀ r name version u, Version.cmp u version = .lt →
      u ∈ factVersions r name →
      u ∈ ((sortVersions (factVersions r name)).filter
          fun v => decide (Version.cmp v version = .lt)).reverse := by
    intro r name version u hlt hu
    rw [List.mem_reverse, List.mem_filter]
    exact ⟨(mem_sortVersions _).mpr hu, by simpa using hlt⟩
  refine ⟨fun r name version criteria => rfl, ?_, ?_⟩
  · intro r name version criteria n w hf
    simp only [find_prev] at hf
    obtain ⟨h1, h2, h3⟩ := find_desc_max (hsortedrev r name version) hf
    rw [List.mem_reverse, List.mem_filter] at h2
    obtain ⟨h2m, h2lt⟩ := h2
    refine ⟨(mem_sortVersions _).mp h2m, by simpa using h2lt, by simpa using h1, ?_⟩
    intro u hu hult huval
    exact h3 u (hmemrev r name version u hult hu) (by simpa using huval)
  · intro r name version criteria n hf u hu hult huval
    simp only [find_prev] at hf
    have := List.find?_eq_none.mp hf u (hmemrev r name version u hult hu)
    simp [huval] at this

/-- The store of the C6 witness: roots for `P 0.1.0` and `P 0.2.0`
under `C`. -/
def rulesC6 : Rules :=
  { trust_roots := [("C", [("P", [(Version.new "0.1.0", none),
      (Version.new "0.2.0", none)])])],
    trust_deltas := [], violations := [], extra_unused := [], implied_all := [],
    implied_any := [], default_policy := ["C"], policy := [] }

theorem find_prev_characterization_witness :
    find_prev rulesC6 "P" (Version.new "0.3.0") "C" 0 = none
    ∧ check_criteria rulesC6 "P" (Version.new "0.2.0") "C" [] 2 = .Validated :=
  ⟨find_prev_characterization.1 rulesC6 "P" (Version.new "0.3.0") "C",
   ((find_prev_characterization.2.1 rulesC6 "P" (Version.new "0.3.0") "C" 2
      (Version.new "0.2.0") (by decide)).2.2).1⟩

/-! ### The check driver's receipts -/

/-- Reason reported for a failing `CheckResult` (`Validated` never
reaches this mapping in `Rules::check`; the characterization below
uses it only under a `≠ Validated` guard). -/
def reasonFor : CheckResult → FailReason
  | .Validated => .Missing
  | .Missing => .Missing
  | .RecursionLimitReached => .RecursionLimitReached
  | .Violation => .Violation

/-- The fail list of a receipt (empty when it passed). -/
def Receipt.failsOf (rc : Receipt) : List Fail :=
  match rc.status with
  | .Passed => []
  | .Failed fails => fails

theorem failsOf_mk (name : String) (version : Version) (fails : List Fail) :
    (Receipt.mk name version
      (if fails.isEmpty then .Passed else .Failed fails)).failsOf = fails := by
  unfold Receipt.failsOf
  by_cases h : fails.isEmpty
  · simp only [h, if_true]
    exact (List.isEmpty_iff.mp h).symm
  · simp [h]

theorem check_fails_eq (r : Rules) (name : String) (version : Version) (limit : Nat) :
    (r.check name version limit).failsOf
      = (r.get_policy name).filterMap (fun c =>
          match check_criteria r name version c [] limit with
          | .Validated => none
          | .Missing => some ⟨c, .Missing, find_prev r name version c limit⟩
          | .RecursionLimitReached =>
              some ⟨c, .RecursionLimitReached, find_prev r name version c limit⟩
          | .Violation => some ⟨c, .Violation, find_prev r name version c limit⟩) :=
  failsOf_mk name version _

/-- Claim C9 (amended): the check driver evaluates every required
criterion of the dependency's resolved policy with a fresh ancestor
chain and the configured recursion budget, and the receipt carries a
`Fail` entry exactly for the criteria that do not validate, each naming
the criterion and the mapped reason and carrying the `find_prev`
nearest-prior hint computed with the same budget — for every failing
reason, including `RecursionLimitReached`, not only `Missing` and
`Violation`. -/
theorem check_receipt_characterization (r : Rules) (name : String) (version : Version)
    (limit : Nat) (f : Fail) :
    f ∈ (r.check name version limit).failsOf ↔
      (f.needed ∈ r.get_policy name
       ∧ check_criteria r name version f.needed [] limit ≠ .Validated
       ∧ f.reason = reasonFor (check_criteria r name version f.needed [] limit)
       ∧ f.prev_version = find_prev r name version f.needed limit) := by
  obtain ⟨nd, rs, pv⟩ := f
  rw [check_fails_eq, List.mem_filterMap]
  constructor
  · rintro ⟨c, hc, hgc⟩
    cases hres : check_criteria r name version c [] limit <;> rw [hres] at hgc
    case Validated => simp at hgc
    all_goals
      (simp only [Option.some.injEq, Fail.mk.injEq] at hgc
       obtain ⟨h1, h2, h3⟩ := hgc
       subst h1
       subst h2
       subst h3
       exact ⟨hc, by simp [hres], by simp [hres, reasonFor], rfl⟩)
  · rintro ⟨hc, hnv, hre, hpv⟩
    try dsimp only at hc hnv hre hpv
    refine ⟨nd, hc, ?_⟩
    cases hres : check_criteria r name version nd [] limit
    case Validated => exact absurd hres hnv
    all_goals
      (rw [hres] at hre
       simp only [reasonFor] at hre
       subst hre
       subst hpv
       try rw [hres]
       try rfl)

/-- The C9 counterexample store: a delta cycle `0.2.0 → 0.2.0` under
`C`, a prior root at `0.1.0`, and a policy requiring `C`. -/
def rulesC9 : Rules :=
  { trust_roots := [("C", [("P", [(Version.new "0.1.0", none)])])],
    trust_deltas := [("C", [("P", [(Version.new "0.2.0", Version.new "0.2.0")])])],
    violations := [], extra_unused := [], implied_all := [], implied_any := [],
    default_policy := ["C"], policy := [] }

/-- Claim C9 counterexample: the driver produces a `Fail` whose reason
is `RecursionLimitReached` and which still carries a `find_prev` hint,
contradicting "a hint exactly when the reason is Missing or Violation". -/
theorem check_receipt_hint_counterexample :
    (rulesC9.check "P" (Version.new "0.2.0") 1).status
      = .Failed [⟨"C", .RecursionLimitReached, some (Version.new "0.1.0")⟩] := by decide

/-! ### Unused-exemption bookkeeping -/

theorem version_toString_new (s : String) :
    Version.toString (Version.new s) = s := by
  unfold Version.toString Version.new
  rw [parseParts_roundtrip s.data]

theorem mem_setInsertUE_self (out : List UnusedExempt) (e : UnusedExempt) :
    e ∈ setInsertUE out e := by
  unfold setInsertUE
  by_cases h : e ∈ out <;> simp [h]

theorem mem_setInsertUE_mono {out : List UnusedExempt} {e : UnusedExempt}
    (x : UnusedExempt) (h : e ∈ out) : e ∈ setInsertUE out x := by
  unfold setInsertUE
  by_cases hx : x ∈ out <;> simp [hx, h]

theorem aget_mem {α β : Type} [DecidableEq α] :
    ∀ (m : List (α × β)) (k : α) (v : β), aget m k = some v → (k, v) ∈ m := by
  intro m k v
  induction m with
  | nil => intro h; simp [aget] at h
  | cons kv rest ih =>
    intro h
    obtain ⟨k1, v1⟩ := kv
    simp only [aget] at h
    by_cases hk : k1 = k
    · subst hk
      rw [if_pos rfl] at h
      obtain rfl := Option.some.inj h
      exact List.mem_cons_self _ _
    · rw [if_neg hk] at h
      exact List.mem_cons_of_mem _ (ih h)

theorem aput3_old {β : Type} (s : CriteriaMap (DepMap (VerMap β))) (c n : String)
    (v : Version) (a : β) : (aput3 s c n v a).2 = aget3 s c n v := by
  unfold aput3 aget3
  rw [aput_old]
  cases hs : aget s c with
  | none => simp [aget]
  | some dm => cases hdm : aget dm n <;> simp [aget, hdm]

theorem aget3_aput3_other {β : Type} (s : CriteriaMap (DepMap (VerMap β)))
    (c n : String) (v : Version) (a : β) (c' n' : String) (v' : Version)
    (hne : c ≠ c' ∨ n ≠ n' ∨ v ≠ v') :
    aget3 (aput3 s c n v a).1 c' n' v' = aget3 s c' n' v' := by
  unfold aget3 aput3
  by_cases hc : c = c'
  · subst hc
    rw [aget_aput_self]
    cases hs : aget s c with
    | none =>
      by_cases hn : n = n'
      · subst hn
        have hv : v ≠ v' := by tauto
        simp [aget, hv]
      · simp [aget, hn]
    | some dm =>
      by_cases hn : n = n'
      · subst hn
        have hv : v ≠ v' := by tauto
        cases hdm : aget dm n <;>
          simp [aget_aput_self, aget_aput_other _ _ _ _ hv, aget, hdm, hv]
      · simp [aget_aput_other _ _ _ _ hn]
  · rw [aget_aput_other _ _ _ _ hc]

/-- The store holds a marker-carrying trust root at this key (that is,
a surviving config exemption). -/
def markedRootAt (tr : CriteriaMap (DepMap (VerMap (Option Bool)))) (c n : String)
    (v : Version) : Bool :=
  match aget3 tr c n v with
  | some (some _) => true
  | _ => false

theorem markedRootAt_iff {tr : CriteriaMap (DepMap (VerMap (Option Bool)))}
    {c n : String} {v : Version} :
    markedRootAt tr c n v = true ↔ ∃ b, aget3 tr c n v = some (some b) := by
  unfold markedRootAt
  cases h : aget3 tr c n v with
  | none => simp
  | some u => cases u with
    | none => simp
    | some b => simp

theorem mem_collectVM_mono {e : UnusedExempt} (criteria dep : String) :
    ∀ (vm : VerMap (Option Bool)) (out : List UnusedExempt),
      e ∈ out → e ∈ collectVM criteria dep vm out := by
  intro vm
  induction vm with
  | nil => intro out h; exact h
  | cons vu rest ih =>
    intro out h
    obtain ⟨version, used⟩ := vu
    simp only [collectVM]
    rcases used with _ | b
    · exact ih _ h
    · cases b
      · exact ih _ (mem_setInsertUE_mono _ h)
      · exact ih _ h

theorem mem_collectVM_hit (criteria dep : String) {version : Version} :
    ∀ (vm : VerMap (Option Bool)) (out : List UnusedExempt),
      (version, some false) ∈ vm →
      (⟨dep, Version.toString version, criteria⟩ : UnusedExempt)
        ∈ collectVM criteria dep vm out := by
  intro vm
  induction vm with
  | nil => intro out h; simp at h
  | cons vu rest ih =>
    intro out h
    rcases List.mem_cons.mp h with heq | htl
    · obtain rfl := heq.symm
      simp only [collectVM]
      exact mem_collectVM_mono criteria dep rest _ (mem_setInsertUE_self out _)
    · obtain ⟨v1, u1⟩ := vu
      simp only [collectVM]
      rcases u1 with _ | b
      · exact ih _ htl
      · cases b
        · exact ih _ htl
        · exact ih _ htl

theorem mem_collectDM_mono {e : UnusedExempt} (criteria : String) :
    ∀ (dm : DepMap (VerMap (Option Bool))) (out : List UnusedExempt),
      e ∈ out → e ∈ collectDM criteria dm out := by
  intro dm
  induction dm with
  | nil => intro out h; exact h
  | cons dv rest ih =>
    intro out h
    obtain ⟨dep, vm⟩ := dv
    simp only [collectDM]
    exact ih _ (mem_collectVM_mono criteria dep vm out h)

theorem mem_collectDM_hit (criteria : String) {dep : String} {version : Version}
    {vm : VerMap (Option Bool)} :
    ∀ (dm : DepMap (VerMap (Option Bool))) (out : List UnusedExempt),
      (dep, vm) ∈ dm → (version, some false) ∈ vm →
      (⟨dep, Version.toString version, criteria⟩ : UnusedExempt)
        ∈ collectDM criteria dm out := by
  intro dm
  induction dm with
  | nil => intro out h _; simp at h
  | cons dv rest ih =>
    intro out h hv
    rcases List.mem_cons.mp h with heq | htl
    · obtain rfl := heq.symm
      simp only [collectDM]
      exact mem_collectDM_mono criteria rest _ (mem_collectVM_hit criteria dep vm out hv)
    · obtain ⟨d1, vm1⟩ := dv
      simp only [collectDM]
      exact ih _ htl hv

theorem mem_collectCM_mono {e : UnusedExempt} :
    ∀ (cm : CriteriaMap (DepMap (VerMap (Option Bool)))) (out : List UnusedExempt),
      e ∈ out → e ∈ collectCM cm out := by
  intro cm
  induction cm with
  | nil => intro out h; exact h
  | cons cd rest ih =>
    intro out h
    obtain ⟨criteria, dm⟩ := cd
    simp only [collectCM]
    exact ih _ (mem_collectDM_mono criteria dm out h)

theorem mem_collectCM_hit {criteria dep : String} {version : Version}
    {dm : DepMap (VerMap (Option Bool))} {vm : VerMap (Option Bool)} :
    ∀ (cm : CriteriaMap (DepMap (VerMap (Option Bool)))) (out : List UnusedExempt),
      (criteria, dm) ∈ cm → (dep, vm) ∈ dm → (version, some false) ∈ vm →
      (⟨dep, Version.toString version, criteria⟩ : UnusedExempt)
        ∈ collectCM cm out := by
  intro cm
  induction cm with
  | nil => intro out h _ _; simp at h
  | cons cd rest ih =>
    intro out h hd hv
    rcases List.mem_cons.mp h with heq | htl
    · obtain rfl := heq.symm
      simp only [collectCM]
      exact mem_collectCM_mono rest _ (mem_collectDM_hit criteria dm out hd hv)
    · obtain ⟨c1, dm1⟩ := cd
      simp only [collectCM]
      exact ih _ htl hd hv

theorem stepViolation_tr (st : BuildSt) (name : String) (a : Audit) :
    (stepViolation st name a).tr = st.tr := by
  unfold stepViolation
  cases a.violation <;> rfl

theorem stepViolation_xu (st : BuildSt) (name : String) (a : Audit) :
    (stepViolation st name a).xu = st.xu := by
  unfold stepViolation
  cases a.violation <;> rfl

theorem stepVersion_xu_mono {e : UnusedExempt} (st : BuildSt) (name : String)
    (a : Audit) (h : e ∈ st.xu) : e ∈ (stepVersion st name a).xu := by
  unfold stepVersion
  cases hv : a.version with
  | none => exact h
  | some vs =>
    simp only []
    cases hp : (aput3 st.tr a.criteria name (Version.new vs) none).2 with
    | none => exact h
    | some m =>
      by_cases hm : m.isSome
      · simp only [hm, if_true]
        exact mem_setInsertUE_mono _ h
      · simp only [hm, if_false, Bool.false_eq_true]
        exact h

theorem addAuditEntry_xu_mono {e : UnusedExempt} {st st' : BuildSt} {name : String}
    {a : Audit} (h : addAuditEntry st name a = .ok st') (he : e ∈ st.xu) :
    e ∈ st'.xu := by
  unfold addAuditEntry at h
  split at h
  · split at h
    · simp at h
    · obtain rfl := Except.ok.inj h
      rw [stepViolation_xu]
      exact stepVersion_xu_mono _ _ _ he
  · obtain rfl := Except.ok.inj h
    rw [stepViolation_xu]
    exact stepVersion_xu_mono _ _ _ he

theorem processAuditList_xu_mono {e : UnusedExempt} {name : String} :
    ∀ (l : List Audit) (st st' : BuildSt),
      processAuditList st name l = .ok st' → e ∈ st.xu → e ∈ st'.xu := by
  intro l
  induction l with
  | nil =>
    intro st st' h he
    obtain rfl := Except.ok.inj h
    exact he
  | cons a rest ih =>
    intro st st' h he
    simp only [processAuditList] at h
    cases ha : addAuditEntry st name a with
    | error er => rw [ha] at h; simp at h
    | ok st1 =>
      rw [ha] at h
      exact ih st1 st' h (addAuditEntry_xu_mono ha he)

theorem processAudits_xu_mono {e : UnusedExempt} :
    ∀ (al : DepMap (List Audit)) (st st' : BuildSt),
      processAudits st al = .ok st' → e ∈ st.xu → e ∈ st'.xu := by
  intro al
  induction al with
  | nil =>
    intro st st' h he
    obtain rfl := Except.ok.inj h
    exact he
  | cons entry rest ih =>
    intro st st' h he
    simp only [processAudits] at h
    cases hl : processAuditList st entry.1 entry.2 with
    | error er => rw [hl] at h; simp at h
    | ok st1 =>
      rw [hl] at h
      exact ih st1 st' h (processAuditList_xu_mono entry.2 st st1 hl he)

theorem stepVersion_preserves_marked {st : BuildSt} {name : String} {a : Audit}
    {c n : String} {v : Version}
    (hnohit : ¬(a.criteria = c ∧ name = n ∧ ∃ vs, a.version = some vs
      ∧ Version.new vs = v))
    (hm : markedRootAt st.tr c n v = true) :
    markedRootAt (stepVersion st name a).tr c n v = true := by
  unfold stepVersion
  cases hv : a.version with
  | none => exact hm
  | some vs =>
    simp only []
    unfold markedRootAt at *
    rw [aget3_aput3_other]
    · exact hm
    · by_cases h1 : a.criteria = c
      · by_cases h2 : name = n
        · right; right
          intro hvv
          exact hnohit ⟨h1, h2, vs, hv, hvv⟩
        · tauto
      · tauto

theorem addAuditEntry_preserves_marked {st st' : BuildSt} {name : String} {a : Audit}
    {c n : String} {v : Version}
    (hnohit : ¬(a.criteria = c ∧ name = n ∧ ∃ vs, a.version = some vs
      ∧ Version.new vs = v))
    (hm : markedRootAt st.tr c n v = true)
    (h : addAuditEntry st name a = .ok st') :
    markedRootAt st'.tr c n v = true := by
  unfold addAuditEntry at h
  split at h
  · split at h
    · simp at h
    · obtain rfl := Except.ok.inj h
      rw [stepViolation_tr]
      exact stepVersion_preserves_marked hnohit hm
  · obtain rfl := Except.ok.inj h
    rw [stepViolation_tr]
    exact stepVersion_preserves_marked hnohit hm

theorem stepVersion_hit {st : BuildSt} {name : String} {a : Audit} {c n : String}
    {v : Version} {vs : String}
    (hc : a.criteria = c) (hn : name = n) (hvs : a.version = some vs)
    (hv : Version.new vs = v)
    (hm : markedRootAt st.tr c n v = true) :
    (⟨n, vs, c⟩ : UnusedExempt) ∈ (stepVersion st name a).xu := by
  subst hc
  subst hn
  subst hv
  obtain ⟨b, hb⟩ := markedRootAt_iff.mp hm
  unfold stepVersion
  rw [hvs]
  simp only [aput3_old, hb, Option.isSome_some, if_true]
  exact mem_setInsertUE_self _ _

theorem addAuditEntry_hit {st st' : BuildSt} {name : String} {a : Audit}
    {c n : String} {v : Version} {vs : String}
    (hc : a.criteria = c) (hn : name = n) (hvs : a.version = some vs)
    (hv : Version.new vs = v)
    (hm : markedRootAt st.tr c n v = true)
    (h : addAuditEntry st name a = .ok st') :
    (⟨n, vs, c⟩ : UnusedExempt) ∈ st'.xu := by
  unfold addAuditEntry at h
  split at h
  · split at h
    · simp at h
    · obtain rfl := Except.ok.inj h
      rw [stepViolation_xu]
      exact stepVersion_hit hc hn hvs hv hm
  · obtain rfl := Except.ok.inj h
    rw [stepViolation_xu]
    exact stepVersion_hit hc hn hvs hv hm

theorem processAuditList_preserves_marked {c n : String} {v : Version} {nm : String} :
    ∀ (l : List Audit) (st st' : BuildSt),
      processAuditList st nm l = .ok st' →
      markedRootAt st.tr c n v = true →
      ¬(nm = n ∧ ∃ a ∈ l, a.criteria = c ∧ ∃ vs, a.version = some vs
        ∧ Version.new vs = v) →
      markedRootAt st'.tr c n v = true := by
  intro l
  induction l with
  | nil =>
    intro st st' h hm _
    obtain rfl := Except.ok.inj h
    exact hm
  | cons a rest ih =>
    intro st st' h hm hnohit
    simp only [processAuditList] at h
    cases ha : addAuditEntry st nm a with
    | error er => rw [ha] at h; simp at h
    | ok st1 =>
      rw [ha] at h
      have hm1 : markedRootAt st1.tr c n v = true := by
        refine addAuditEntry_preserves_marked ?_ hm ha
        rintro ⟨h1, rfl, vs, hvs, hvv⟩
        exact hnohit ⟨rfl, a, List.mem_cons_self _ _, h1, vs, hvs, hvv⟩
      refine ih st1 st' h hm1 ?_
      rintro ⟨rfl, a', ha', hrest⟩
      exact hnohit ⟨rfl, a', List.mem_cons_of_mem _ ha', hrest⟩

theorem processAuditList_unused {c n : String} {v : Version} :
    ∀ (l : List Audit) (st st' : BuildSt),
      processAuditList st n l = .ok st' →
      markedRootAt st.tr c n v = true →
      (∃ a ∈ l, a.criteria = c ∧ ∃ vs, a.version = some vs ∧ Version.new vs = v) →
      (⟨n, Version.toString v, c⟩ : UnusedExempt) ∈ st'.xu := by
  intro l
  induction l with
  | nil =>
    intro st st' _ _ hex
    obtain ⟨a, ha, _⟩ := hex
    simp at ha
  | cons a rest ih =>
    intro st st' h hm hex
    simp only [processAuditList] at h
    cases ha : addAuditEntry st n a with
    | error er => rw [ha] at h; simp at h
    | ok st1 =>
      rw [ha] at h
      by_cases hhit : a.criteria = c ∧ ∃ vs, a.version = some vs ∧ Version.new vs = v
      · obtain ⟨hc, vs, hvs, hv⟩ := hhit
        have hts : Version.toString v = vs := by
          rw [← hv, version_toString_new]
        rw [hts]
        exact processAuditList_xu_mono rest st1 st' h
          (addAuditEntry_hit hc rfl hvs hv hm ha)
      · have hm1 : markedRootAt st1.tr c n v = true := by
          refine addAuditEntry_preserves_marked ?_ hm ha
          rintro ⟨h1, _, vs, hvs, hvv⟩
          exact hhit ⟨h1, vs, hvs, hvv⟩
        obtain ⟨a', ha', hrest⟩ := hex
        rcases List.mem_cons.mp ha' with rfl | ha'
        · exact absurd hrest hhit
        · exact ih st1 st' h hm1 ⟨a', ha', hrest⟩

theorem processAudits_unused {c n : String} {v : Version} :
    ∀ (al : DepMap (List Audit)) (st st' : BuildSt),
      processAudits st al = .ok st' →
      markedRootAt st.tr c n v = true →
      (∃ entry ∈ al, entry.1 = n ∧ ∃ a ∈ entry.2, a.criteria = c
        ∧ ∃ vs, a.version = some vs ∧ Version.new vs = v) →
      (⟨n, Version.toString v, c⟩ : UnusedExempt) ∈ st'.xu := by
  intro al
  induction al with
  | nil =>
    intro st st' _ _ hex
    obtain ⟨entry, he, _⟩ := hex
    simp at he
  | cons entry rest ih =>
    intro st st' h hm hex
    simp only [processAudits] at h
    cases hl : processAuditList st entry.1 entry.2 with
    | error er => rw [hl] at h; simp at h
    | ok st1 =>
      rw [hl] at h
      by_cases hh : entry.1 = n ∧ ∃ a ∈ entry.2, a.criteria = c
          ∧ ∃ vs, a.version = some vs ∧ Version.new vs = v
      · obtain ⟨hen, hea⟩ := hh
        subst hen
        exact processAudits_xu_mono rest st1 st' h
          (processAuditList_unused entry.2 st st1 hl hm hea)
      · have hm1 : markedRootAt st1.tr c n v = true :=
          processAuditList_preserves_marked entry.2 st st1 hl hm hh
        obtain ⟨e1, he1, hen, hea⟩ := hex
        rcases List.mem_cons.mp he1 with rfl | he1
        · exact absurd ⟨hen, hea⟩ hh
        · exact ih st1 st' h hm1 ⟨e1, he1, hen, hea⟩

/-- Claim C7: after a check run whose `mark_used` calls are the set `M`,
the unused-exemption set contains every config exemption trust root
with `allow_unused = false` (marker `some false`) whose marker was
never set during the run, together with every exemption superseded at
construction by a ledger audit of the same (criterion, name, version)
key — recorded into `extra_unused` regardless of its flag and of use,
and always included in the output. -/
theorem unused_exempts_complete (config : Config) (audits : Audits) (r : Rules)
    (M : String → String → Version → Bool)
    (hnew : Rules.new config audits = .ok r) :
    (∀ c n v, aget3 r.trust_roots c n v = some (some false) → M c n v = false →
      (⟨n, Version.toString v, c⟩ : UnusedExempt)
        ∈ (applyMarks r M).unused_exempts)
    ∧ (∀ e ∈ r.extra_unused, e ∈ (applyMarks r M).unused_exempts)
    ∧ (∀ c n v, markedRootAt (buildExemptRoots config.exempt) c n v = true →
        (∃ entry ∈ audits.audits, entry.1 = n ∧ ∃ a ∈ entry.2, a.criteria = c
          ∧ ∃ vs, a.version = some vs ∧ Version.new vs = v) →
        (⟨n, Version.toString v, c⟩ : UnusedExempt) ∈ r.extra_unused) := by
  refine ⟨?_, ?_, ?_⟩
  · intro c n v hroot hM
    cases h1 : aget r.trust_roots c with
    | none => simp [aget3, h1] at hroot
    | some dm =>
      cases h2 : aget dm n with
      | none => simp [aget3, h1, h2] at hroot
      | some vm =>
        have h3 : aget vm v = some (some false) := by
          simpa [aget3, h1, h2] using hroot
        have m1 := aget_mem _ _ _ h1
        have m2 := aget_mem _ _ _ h2
        have m3 := aget_mem _ _ _ h3
        have m1' := List.mem_map_of_mem
          (fun cd => (cd.1, cd.2.map fun dv =>
            (dv.1, dv.2.map fun vu =>
              (vu.1, vu.2.map fun b => b || M cd.1 dv.1 vu.1)))) m1
        have m2' := List.mem_map_of_mem
          (fun dv => (dv.1, dv.2.map fun vu =>
            (vu.1, vu.2.map fun b => b || M c dv.1 vu.1))) m2
        have m3'' := List.mem_map_of_mem
          (fun vu => (vu.1, vu.2.map fun b => b || M c n vu.1)) m3
        have m3' : ((v, some false) : Version × Option Bool)
            ∈ vm.map fun vu => (vu.1, vu.2.map fun b => b || M c n vu.1) := by
          have hleaf : ((fun vu => (vu.1, vu.2.map fun b => b || M c n vu.1))
              ((v, some false) : Version × Option Bool)) = (v, some false) := by
            simp [hM]
          rw [hleaf] at m3''
          exact m3''
        exact mem_collectCM_hit _ _ m1' m2' m3'
  · intro e he
    exact mem_collectCM_mono _ _ he
  · intro c n v hm hex
    simp only [Rules.new] at hnew
    cases hp : processAudits ⟨buildExemptRoots config.exempt, [], [], []⟩
        audits.audits with
    | error e => rw [hp] at hnew; simp at hnew
    | ok st =>
      rw [hp] at hnew
      simp only [Except.ok.injEq] at hnew
      have hxu : r.extra_unused = st.xu := by rw [← hnew]
      rw [hxu]
      exact processAudits_unused audits.audits _ st hp hm hex

def auditC7 : Audit :=
  { criteria := "crit", delta := none, version := some "1.0",
    violation := none, allow_unused := false }

def configC7 : Config :=
  { criteria := [], default_policy := none, policy := [],
    exempt := [("dep", [auditC7])] }

def auditsC7 : Audits :=
  { criteria := [], audits := [("dep", [auditC7])] }

/-- The compiled rules of the C7 witness: the exemption is superseded by
the ledger audit, leaving a markerless root and an `extra_unused`
record. -/
def rulesC7 : Rules :=
  { trust_roots := [("crit", [("dep", [(Version.new "1.0", none)])])],
    trust_deltas := [], violations := [],
    extra_unused := [⟨"dep", "1.0", "crit"⟩],
    implied_all := [], implied_any := [],
    default_policy := ["safe-to-deploy"], policy := [] }

theorem unused_exempts_complete_witness :
    (⟨"dep", "1.0", "crit"⟩ : UnusedExempt)
      ∈ (applyMarks rulesC7 fun _ _ _ => false).unused_exempts :=
  (unused_exempts_complete configC7 auditsC7 rulesC7 (fun _ _ _ => false)
      (by decide)).2.1 ⟨"dep", "1.0", "crit"⟩ (by decide)
